import Mathlib

/-!
Verification of the go_graph dependency-graph library (src/main.go): the
Node/Graph data model, `Add`, the depth-first cycle-detecting topological
sort (`Sort`), compilation into an execution plan (`CompileToExecutable`,
`RootIds`), and the recursive executor (`runNode` / `run`).

Embedding conventions:
* Go maps (`Nodes`, `NodeIDs`, `executableNodes`, the `visited` / `stack`
  boolean maps) are embedded as association lists / identifier lists in
  insertion order; Go's nondeterministic map iteration is fixed to list
  order.
* The recursive `visit` is embedded with an explicit fuel parameter; fuel
  exhaustion is a distinct error (`outOfFuel`) that is later proven
  unreachable for the fuel `Sort` supplies.
* `error` return values become `Except`; a work function returns `none`
  on success and `some msg` on failure.
* Methods that could mutate the receiver thread the graph state
  explicitly (`Add` returns the updated graph).
-/

namespace GoGraph

/-- `type NodeID string` -/
abbrev NodeID := String

/-- `type NodeFn func(name NodeID) error`: `none` is a nil error (success),
`some msg` a failure. -/
abbrev NodeFn := NodeID → Option String

/-- `type Node struct { Name string; Fn NodeFn; Dependencies NodeIDs }`.
The dependency set `NodeIDs` (`map[NodeID]struct{}`) is embedded as a list
of identifiers. -/
structure Node where
  Name : String
  Fn : NodeFn
  Dependencies : List NodeID

/-- `func (n *Node) Identifier() NodeID { return NodeID(n.Name) }` -/
def Node.Identifier (n : Node) : NodeID := n.Name

/-- The `Nodes` map (`map[NodeID]*Node`) as an association list. -/
abbrev GraphRep := List (NodeID × Node)

/-- Map lookup `g.nodes[id]` (first matching key). -/
def lookupNode : GraphRep → NodeID → Option Node
  | [], _ => none
  | (k, v) :: rest, id => if k = id then some v else lookupNode rest id

/-- The key set of the node map. -/
def keysG (m : GraphRep) : List NodeID := m.map Prod.fst

/-- `type Graph struct { name string; nodes Nodes }` -/
structure Graph where
  name : String
  nodes : GraphRep

/-- `func NewGraph(name string) *Graph` -/
def NewGraph (name : String) : Graph := ⟨name, []⟩

/-- The errors produced by the library.  `duplicateIdentifier id` is
`"Node with id %s already exists"`, `missingDependency id dep` is
`"Node %s is missing dependency %s"`, `nodeNotFound id` is
`"Node %s does not exist"`, `cycleDetected id` is
`"Detected cycle on %s"`; `outOfFuel` is the embedding's fuel-exhaustion
marker (no Go counterpart; proven unreachable for `Sort`'s fuel). -/
inductive GraphError where
  | duplicateIdentifier (id : NodeID)
  | missingDependency (id dep : NodeID)
  | nodeNotFound (id : NodeID)
  | cycleDetected (id : NodeID)
  | outOfFuel
  deriving DecidableEq

/-- The first dependency (in iteration order) absent from the node map,
mirroring the loop in `Add`. -/
def firstMissingDep (m : GraphRep) (deps : List NodeID) : Option NodeID :=
  deps.find? (fun d => (lookupNode m d).isNone)

/-- `func (g *Graph) Add(node *Node) (NodeID, error)`, with the receiver
state threaded: the second component is the graph after the call. -/
def Graph.Add (g : Graph) (node : Node) : Except GraphError NodeID × Graph :=
  let id := node.Identifier
  if (lookupNode g.nodes id).isSome then
    (.error (.duplicateIdentifier id), g)
  else
    match firstMissingDep g.nodes node.Dependencies with
    | some d => (.error (.missingDependency id d), g)
    | none => (.ok id, { g with nodes := g.nodes ++ [(id, node)] })

/-- Membership of a key in the map is the same as `lookupNode` succeeding. -/
theorem lookupNode_isSome_iff {m : GraphRep} {id : NodeID} :
    (lookupNode m id).isSome ↔ id ∈ keysG m := by
  induction m with
  | nil => simp [lookupNode, keysG]
  | cons p rest ih =>
    obtain ⟨k, v⟩ := p
    by_cases h : k = id
    · subst h; simp [lookupNode, keysG]
    · have hne : id ≠ k := fun hh => h hh.symm
      simp only [lookupNode, if_neg h, keysG, List.map_cons, List.mem_cons]
      rw [ih]
      simp [keysG, hne]

theorem lookupNode_eq_none_iff {m : GraphRep} {id : NodeID} :
    lookupNode m id = none ↔ id ∉ keysG m := by
  rw [← lookupNode_isSome_iff, Option.isSome_iff_ne_none]
  simp

theorem lookupNode_mem {m : GraphRep} {id : NodeID} {nd : Node}
    (h : lookupNode m id = some nd) : (id, nd) ∈ m := by
  induction m with
  | nil => simp [lookupNode] at h
  | cons p rest ih =>
    obtain ⟨k, v⟩ := p
    by_cases hk : k = id
    · subst hk
      simp [lookupNode] at h
      simp [h]
    · simp [lookupNode, hk] at h
      exact List.mem_cons_of_mem _ (ih h)

theorem mem_keysG_of_mem {m : GraphRep} {p : NodeID × Node}
    (h : p ∈ m) : p.1 ∈ keysG m := List.mem_map_of_mem Prod.fst h

/-- Claim C3: `Add` fails with `duplicateIdentifier` when the identifier is
already present (checked first), otherwise with `missingDependency` naming a
declared dependency absent from the graph; in both failure cases the graph
is returned unchanged, and on success `Add` returns the identifier and
appends exactly the new node. -/
theorem Add_spec (g : Graph) (node : Node) :
    (node.Identifier ∈ keysG g.nodes →
      g.Add node = (.error (.duplicateIdentifier node.Identifier), g)) ∧
    (node.Identifier ∉ keysG g.nodes →
      (∃ d ∈ node.Dependencies, d ∉ keysG g.nodes) →
      ∃ d, d ∈ node.Dependencies ∧ d ∉ keysG g.nodes ∧
        g.Add node = (.error (.missingDependency node.Identifier d), g)) ∧
    (node.Identifier ∉ keysG g.nodes →
      (∀ d ∈ node.Dependencies, d ∈ keysG g.nodes) →
      g.Add node = (.ok node.Identifier, ⟨g.name, g.nodes ++ [(node.Identifier, node)]⟩)) := by
  refine ⟨?_, ?_, ?_⟩
  · intro hmem
    have hs : (lookupNode g.nodes node.Identifier).isSome := lookupNode_isSome_iff.mpr hmem
    simp [Graph.Add, hs]
  · intro hmem hex
    have hs : ¬ (lookupNode g.nodes node.Identifier).isSome := by
      rw [lookupNode_isSome_iff]; exact hmem
    have hfind : ∃ d, firstMissingDep g.nodes node.Dependencies = some d := by
      obtain ⟨d, hd, hdk⟩ := hex
      rcases hf : firstMissingDep g.nodes node.Dependencies with _ | d'
      · exfalso
        rw [firstMissingDep, List.find?_eq_none] at hf
        have := hf d hd
        rw [lookupNode_eq_none_iff.mpr hdk] at this
        simp at this
      · exact ⟨d', rfl⟩
    obtain ⟨d, hd⟩ := hfind
    have hdmem : d ∈ node.Dependencies := List.mem_of_find?_eq_some hd
    have hdnone : (lookupNode g.nodes d).isNone := by
      have := List.find?_some hd
      simpa using this
    refine ⟨d, hdmem, ?_, ?_⟩
    · rw [← lookupNode_eq_none_iff]
      simpa [Option.isNone_iff_eq_none] using hdnone
    · simp [Graph.Add, hs, hd]
  · intro hmem hall
    have hs : ¬ (lookupNode g.nodes node.Identifier).isSome := by
      rw [lookupNode_isSome_iff]; exact hmem
    have hfind : firstMissingDep g.nodes node.Dependencies = none := by
      rw [firstMissingDep, List.find?_eq_none]
      intro d hd
      have : (lookupNode g.nodes d).isSome := lookupNode_isSome_iff.mpr (hall d hd)
      simp [Option.isNone_iff_eq_none]
      exact Option.isSome_iff_ne_none.mp this
    simp [Graph.Add, hs, hfind]

/-! ## Topological sort (`Sort` / `visit`)

Go's `visit` mutates three shared structures: the global `visited` map, the
per-chain `stack` map, and the `results` slice.  `visited` and `results`
are threaded through the embedding; `stack` is passed downward only, which
is observationally faithful because every successful `visit` restores
`stack` exactly (`stack[name] = false` undoes the earlier
`stack[name] = true`), an error aborts the whole sort, and `Sort` makes a
fresh stack for every top-level chain.

The placement of a finished node into `results` is abstracted by a `place`
parameter so the slot-filling array (`sortFill` over an array of empty
strings, exactly as in the source) can be related to a plain append
collector (`pushL` from `[]`), which is used for the invariant proofs. -/

/-- `for i, r := range results { if r == "" { results[i] = name; break } }`:
write `name` into the first empty slot of the results slice. -/
def sortFill : List NodeID → NodeID → List NodeID
  | [], _ => []
  | r :: rs, name => if r = "" then name :: rs else r :: sortFill rs name

/-- Append collector used by the proof-side variant of `Sort`. -/
def pushL (l : List NodeID) (x : NodeID) : List NodeID := l ++ [x]

/-- One pass of the dependency loop in `visit`:
`for n := range neighbors { if !visited[n] { ... } else if stack[n] { ... } }`.
`recur` is the recursive call `g.visit(n, g.nodes[n].Dependencies, ...)`
supplied by `visitNode`. -/
def visitDeps (g : GraphRep)
    (recur : NodeID → List NodeID → List NodeID → List NodeID →
      Except GraphError (List NodeID × List NodeID))
    (stack : List NodeID) :
    List NodeID → List NodeID → List NodeID →
      Except GraphError (List NodeID × List NodeID)
  | [], visited, results => .ok (visited, results)
  | n :: rest, visited, results =>
    if n ∈ visited then
      if n ∈ stack then .error (.cycleDetected n)
      else visitDeps g recur stack rest visited results
    else
      match lookupNode g n with
      | none => .error (.nodeNotFound n)
      | some nd =>
        match recur n nd.Dependencies visited results with
        | .error e => .error e
        | .ok (v, r) => visitDeps g recur stack rest v r

/-- `func (g *Graph) visit(name, neighbors, stack, visited, results) error`:
mark `name` visited and on-stack, process the neighbors, then place `name`
into the results.  The fuel bounds the recursion depth; `Sort` passes
enough for the depth ever reached. -/
def visitNode (g : GraphRep) (place : List NodeID → NodeID → List NodeID) :
    Nat → NodeID → List NodeID → List NodeID → List NodeID → List NodeID →
      Except GraphError (List NodeID × List NodeID)
  | 0, _, _, _, _, _ => .error .outOfFuel
  | fuel + 1, name, neighbors, stack, visited, results =>
    match visitDeps g (fun n ns v r => visitNode g place fuel n ns (name :: stack) v r)
        (name :: stack) neighbors (name :: visited) results with
    | .error e => .error e
    | .ok (v, r) => .ok (v, place r name)

/-- The loop of `Sort`: `for n, node := range g.nodes { if !visited[n] { ... } }`,
with a fresh stack for each chain. -/
def sortLoop (g : GraphRep) (place : List NodeID → NodeID → List NodeID) (fuel : Nat) :
    GraphRep → List NodeID → List NodeID →
      Except GraphError (List NodeID × List NodeID)
  | [], visited, results => .ok (visited, results)
  | (n, node) :: rest, visited, results =>
    if n ∈ visited then sortLoop g place fuel rest visited results
    else
      match visitNode g place fuel n node.Dependencies [] visited results with
      | .error e => .error e
      | .ok (v, r) => sortLoop g place fuel rest v r

/-- `Sort` parametrized by the placement function and the initial results
value. -/
def sortWith (g : Graph) (place : List NodeID → NodeID → List NodeID)
    (init : List NodeID) : Except GraphError (List NodeID) :=
  match sortLoop g.nodes place (g.nodes.length + 1) g.nodes [] init with
  | .error e => .error e
  | .ok (_, results) => .ok results

/-- `func (g *Graph) Sort() (SortedNodeIDs, error)` (named `sort` because
`Sort` is a Lean keyword): results start as `make(SortedNodeIDs, len(g.nodes))`,
i.e. a slice of empty strings, filled by `sortFill`. -/
def Graph.sort (g : Graph) : Except GraphError (List NodeID) :=
  sortWith g sortFill (List.replicate g.nodes.length "")

/-- Proof-side variant of `sort` that collects finished nodes by appending.
Its control flow (success and errors) coincides with `sort`; only the
representation of the results differs. -/
def Graph.sortAppend (g : Graph) : Except GraphError (List NodeID) :=
  sortWith g pushL []

/-- The dependency relation of a graph: `Edge m a b` holds when node `a` is
present and declares `b` among its dependencies ("`a` depends on `b`"). -/
def Edge (m : GraphRep) (a b : NodeID) : Prop :=
  ∃ nd, lookupNode m a = some nd ∧ b ∈ nd.Dependencies

/-- Every dependency declared by a stored node is itself present: the
invariant `Add` maintains. -/
def depsPresent (m : GraphRep) : Prop :=
  ∀ p ∈ m, ∀ d ∈ p.2.Dependencies, (lookupNode m d).isSome

instance (m : GraphRep) : Decidable (depsPresent m) := by
  unfold depsPresent; infer_instance

/-! ## Compilation (`CompileToExecutable`) and execution (`runNode` / `run`)

`executableNodes` (`map[NodeID]*ExecutableNode`) is an association list;
`GetOrCreate` appends a zero-valued entry, and pointer mutations through
`GetOrCreate` become in-place updates of the unique entry with that key.
The Go zero value of `ExecutableNode` has a nil `fn`, embedded as `none`. -/

/-- `type ExecutableNode struct { targetIDs NodeIDs; required int; fn NodeFn }`.
`fn` is optional because the zero value produced by `GetOrCreate` has a nil
function pointer. -/
structure ExecutableNode where
  targetIDs : List NodeID
  required : Nat
  fn : Option NodeFn

/-- The Go zero value `&ExecutableNode{}`. -/
def ExecutableNode.zero : ExecutableNode := ⟨[], 0, none⟩

/-- The `executableNodes` map as an association list. -/
abbrev ExecRep := List (NodeID × ExecutableNode)

/-- Map lookup `en[id]`. -/
def lookupE : ExecRep → NodeID → Option ExecutableNode
  | [], _ => none
  | (k, v) :: rest, id => if k = id then some v else lookupE rest id

/-- The key set of an `executableNodes` map. -/
def keysE (m : ExecRep) : List NodeID := m.map Prod.fst

/-- `exn.targetIDs[id] = struct{}{}`: set insertion (the nil-map branch of
`AddTargets` and the insert branch coincide observationally). -/
def insertTarget (l : List NodeID) (t : NodeID) : List NodeID :=
  if t ∈ l then l else l ++ [t]

/-- `func (en executableNodes) GetOrCreate(id NodeID) *ExecutableNode`:
ensure an entry for `id` exists (zero-valued when created). -/
def getOrCreateE (m : ExecRep) (id : NodeID) : ExecRep :=
  if (lookupE m id).isSome then m else m ++ [(id, .zero)]

/-- Update the entry for `id` in place (the effect of mutating through the
pointer returned by `GetOrCreate`). -/
def modifyE : ExecRep → NodeID → (ExecutableNode → ExecutableNode) → ExecRep
  | [], _, _ => []
  | (k, e) :: rest, id, f =>
    if k = id then (k, f e) :: rest else (k, e) :: modifyE rest id f

/-- `dep := nodes.GetOrCreate(depId); dep.AddTargets(id)`. -/
def addTargetE (m : ExecRep) (depId targetId : NodeID) : ExecRep :=
  modifyE (getOrCreateE m depId) depId
    (fun e => { e with targetIDs := insertTarget e.targetIDs targetId })

/-- `n := nodes.GetOrCreate(id); n.fn = node.Fn; n.required = len(node.Dependencies)`. -/
def setNodeE (m : ExecRep) (id : NodeID) (fn : NodeFn) (req : Nat) : ExecRep :=
  modifyE (getOrCreateE m id) id (fun e => { e with fn := some fn, required := req })

/-- The dependency loop of the compilation step:
`for depId := range node.Dependencies { nodes.GetOrCreate(depId).AddTargets(id) }`. -/
def depsFoldE (m : ExecRep) (ds : List NodeID) (tid : NodeID) : ExecRep :=
  ds.foldl (fun m' d => addTargetE m' d tid) m

/-- The body of the compilation loop for one graph entry. -/
def compileStep (m : ExecRep) (p : NodeID × Node) : ExecRep :=
  setNodeE (depsFoldE m p.2.Dependencies p.1) p.1 p.2.Fn p.2.Dependencies.length

/-- `type ParallelizedExecutableGraph struct { name string; nodes executableNodes }` -/
structure ParallelizedExecutableGraph where
  name : String
  nodes : ExecRep

/-- `func (g *Graph) CompileToExecutable() *ParallelizedExecutableGraph`. -/
def Graph.CompileToExecutable (g : Graph) : ParallelizedExecutableGraph :=
  ⟨g.name, g.nodes.foldl compileStep []⟩

/-- `func (en executableNodes) RootIds() []NodeID`: ids of the entries with
`required == 0`. -/
def RootIds (m : ExecRep) : List NodeID :=
  (m.filter (fun p => p.2.required == 0)).map Prod.fst

/-- Panics of the executor (`runNode` dereferences `peg.nodes[id]` and
`node.fn` unconditionally), plus the embedding's fuel-exhaustion marker. -/
inductive RunPanic where
  | nilNode (id : NodeID)
  | nilFn (id : NodeID)
  | fuelOut
  deriving DecidableEq

/-- Sequentially run a list of nodes (the recursion over `targetIDs` and the
root loop of `run`), concatenating the invocation traces. -/
def runList (recur : NodeID → Except RunPanic (List NodeID)) :
    List NodeID → Except RunPanic (List NodeID)
  | [] => .ok []
  | t :: rest =>
    match recur t with
    | .error e => .error e
    | .ok tr =>
      match runList recur rest with
      | .error e => .error e
      | .ok trs => .ok (tr ++ trs)

/-- `func (peg *ParallelizedExecutableGraph) runNode(id NodeID)`: invoke the
node's work function (its error is discarded, exactly as in the source) and
recursively run every target.  The returned trace lists the identifiers on
which a work function was invoked, in invocation order. -/
def ParallelizedExecutableGraph.runNode (peg : ParallelizedExecutableGraph) :
    Nat → NodeID → Except RunPanic (List NodeID)
  | 0, _ => .error .fuelOut
  | fuel + 1, id =>
    match lookupE peg.nodes id with
    | none => .error (.nilNode id)
    | some node =>
      match node.fn with
      | none => .error (.nilFn id)
      | some f =>
        let _ := f id
        match runList (peg.runNode fuel) node.targetIDs with
        | .error e => .error e
        | .ok tr => .ok (id :: tr)

/-- `func (peg *ParallelizedExecutableGraph) run()`: run every root. -/
def ParallelizedExecutableGraph.run (peg : ParallelizedExecutableGraph)
    (fuel : Nat) : Except RunPanic (List NodeID) :=
  runList (peg.runNode fuel) (RootIds peg.nodes)

/-- A concrete work function that always succeeds. -/
def okFn : NodeFn := fun _ => none

/-- A concrete work function that always fails. -/
def failFn : NodeFn := fun _ => some "boom"

/-- Witness graph: the single node `"a"` with no dependencies. -/
def nodeA : Node := ⟨"a", okFn, []⟩

def graphA : Graph := ⟨"g", [("a", nodeA)]⟩

/-- Witness for C3: adding `"a"` to a graph already containing `"a"` fails
with `duplicateIdentifier` and leaves the graph unchanged. -/
theorem Add_spec_witness :
    graphA.Add nodeA = (.error (.duplicateIdentifier "a"), graphA) :=
  (Add_spec graphA nodeA).1 (by decide)

/-- The diamond of the spec's regression case: `a` and `e` have no
dependencies, `c` depends on both. -/
def graphDiamond : Graph :=
  ⟨"g", [("a", ⟨"a", okFn, []⟩), ("e", ⟨"e", okFn, []⟩),
         ("c", ⟨"c", okFn, ["a", "e"]⟩)]⟩

/-- Claim C1 (refuting evidence, code bug): running the plan compiled from
the diamond invokes `c`'s work twice — once per completed dependency — and
the first invocation of `c` happens before `e` has run at all, because
`runNode` recursively dispatches every target as soon as one dependency
finishes, with no fan-in counting. -/
theorem diamond_run_invokes_c_twice :
    graphDiamond.CompileToExecutable.run 10 = .ok ["a", "c", "e", "c"] ∧
    ["a", "c", "e", "c"].count "c" = 2 := by
  exact ⟨rfl, by decide⟩

/-- A two-node chain whose root's work function fails. -/
def graphFail : Graph :=
  ⟨"g", [("a", ⟨"a", failFn, []⟩), ("b", ⟨"b", okFn, ["a"]⟩)]⟩

/-- Claim C5 (refuting evidence, code bug): although `a`'s work function
fails, its dependent `b` still has its work invoked (`runNode` discards the
work function's error and dispatches all targets unconditionally), and the
run reports no unreached set. -/
theorem failed_dependent_still_invoked :
    graphFail.CompileToExecutable.run 5 = .ok ["a", "b"] ∧
    failFn "a" = some "boom" :=
  ⟨rfl, rfl⟩

/-- A single node whose work function fails. -/
def graphFailOnly : Graph := ⟨"g", [("a", ⟨"a", failFn, []⟩)]⟩

/-- Claim C6 (refuting evidence, code bug): `run` has no result value in
the code — the embedding's only observable is the invocation trace — and a
run containing a failing work function completes with no aggregated
failures, unreached set or allSucceeded flag; the work error is simply
discarded. -/
theorem run_surfaces_no_failures :
    graphFailOnly.CompileToExecutable.run 3 = .ok ["a"] ∧
    failFn "a" ≠ none :=
  ⟨rfl, by decide⟩

/-- Claim C8: compiling the same graph twice yields plans with identical
topology — the same key set, and for every identifier the same `required`
count and the same `targets`.  (Compilation is deterministic: both plans
are the value of `CompileToExecutable` at `g`.) -/
theorem compile_idempotent (g : Graph) (p₁ p₂ : ParallelizedExecutableGraph)
    (h₁ : p₁ = g.CompileToExecutable) (h₂ : p₂ = g.CompileToExecutable) :
    keysE p₁.nodes = keysE p₂.nodes ∧
    ∀ id, (lookupE p₁.nodes id).map (fun e => (e.required, e.targetIDs)) =
      (lookupE p₂.nodes id).map (fun e => (e.required, e.targetIDs)) := by
  subst h₁; subst h₂; exact ⟨rfl, fun _ => rfl⟩

/-- Witness for C8 at a concrete graph and identifier. -/
theorem compile_idempotent_witness :
    keysE graphDiamond.CompileToExecutable.nodes =
      keysE graphDiamond.CompileToExecutable.nodes ∧
    (lookupE graphDiamond.CompileToExecutable.nodes "c").map
        (fun e => (e.required, e.targetIDs)) =
      (lookupE graphDiamond.CompileToExecutable.nodes "c").map
        (fun e => (e.required, e.targetIDs)) :=
  ⟨(compile_idempotent graphDiamond _ _ rfl rfl).1,
   (compile_idempotent graphDiamond _ _ rfl rfl).2 "c"⟩

/-- `Sort` with the receiver threaded, as for `Add`: the method never
assigns to `g.nodes` (it only reads them into local `visited`/`stack`
maps and the fresh results slice), so the state it returns is the graph it
received. -/
def Graph.SortM (g : Graph) : Except GraphError (List NodeID) × Graph :=
  (g.sort, g)

/-- `CompileToExecutable` with the receiver threaded: it builds a fresh
`executableNodes` map and never writes to `g.nodes`. -/
def Graph.CompileM (g : Graph) : ParallelizedExecutableGraph × Graph :=
  (g.CompileToExecutable, g)

/-- Claim C9: neither `Sort` nor `CompileToExecutable` modifies the graph:
the threaded state returned by either call is exactly the input graph, so
every node's name, work function and dependency set are unchanged. -/
theorem sort_compile_no_mutation (g : Graph) :
    (g.SortM).2 = g ∧ (g.CompileM).2 = g ∧
    ∀ id, lookupNode (g.SortM).2.nodes id = lookupNode g.nodes id ∧
      lookupNode (g.CompileM).2.nodes id = lookupNode g.nodes id :=
  ⟨rfl, rfl, fun _ => ⟨rfl, rfl⟩⟩

/-! ## Characterization of the compiled plan -/

theorem lookupE_isSome_iff {m : ExecRep} {id : NodeID} :
    (lookupE m id).isSome ↔ id ∈ keysE m := by
  induction m with
  | nil => simp [lookupE, keysE]
  | cons p rest ih =>
    obtain ⟨k, v⟩ := p
    by_cases h : k = id
    · subst h; simp [lookupE, keysE]
    · have hne : id ≠ k := fun hh => h hh.symm
      simp only [lookupE, if_neg h, keysE, List.map_cons, List.mem_cons]
      rw [ih]
      simp [keysE, hne]

theorem lookupE_eq_none_iff {m : ExecRep} {id : NodeID} :
    lookupE m id = none ↔ id ∉ keysE m := by
  rw [← lookupE_isSome_iff, Option.isSome_iff_ne_none]
  simp

theorem lookupE_mem {m : ExecRep} {id : NodeID} {e : ExecutableNode}
    (h : lookupE m id = some e) : (id, e) ∈ m := by
  induction m with
  | nil => simp [lookupE] at h
  | cons p rest ih =>
    obtain ⟨k, v⟩ := p
    by_cases hk : k = id
    · subst hk
      simp [lookupE] at h
      simp [h]
    · simp [lookupE, hk] at h
      exact List.mem_cons_of_mem _ (ih h)

theorem lookupE_of_mem_nodup {m : ExecRep} {id : NodeID} {e : ExecutableNode}
    (hnd : (keysE m).Nodup) (h : (id, e) ∈ m) : lookupE m id = some e := by
  induction m with
  | nil => simp at h
  | cons p rest ih =>
    obtain ⟨k, v⟩ := p
    simp only [keysE, List.map_cons, List.nodup_cons] at hnd
    rcases List.mem_cons.mp h with h1 | h1
    · injection h1 with hk hv
      subst hk; subst hv
      simp [lookupE]
    · have hkne : k ≠ id := by
        intro hk; subst hk
        exact hnd.1 (mem_keysEaux h1)
      simp [lookupE, hkne]
      exact ih hnd.2 h1
where
  mem_keysEaux {rest : ExecRep} {id : NodeID} {e : ExecutableNode}
      (h : (id, e) ∈ rest) : id ∈ keysE rest := List.mem_map_of_mem Prod.fst h

theorem lookupE_modifyE (m : ExecRep) (id : NodeID) (f : ExecutableNode → ExecutableNode)
    (x : NodeID) :
    lookupE (modifyE m id f) x =
      if x = id then (lookupE m id).map f else lookupE m x := by
  induction m with
  | nil => by_cases h : x = id <;> simp [modifyE, lookupE, h]
  | cons p rest ih =>
    obtain ⟨k, v⟩ := p
    by_cases hk : k = id
    · subst hk
      by_cases hx : x = k
      · subst hx; simp [modifyE, lookupE]
      · have : k ≠ x := fun hh => hx hh.symm
        simp [modifyE, lookupE, hx, this]
    · by_cases hx : x = id
      · subst hx
        have : k ≠ x := hk
        simp [modifyE, hk, lookupE, this, ih]
      · by_cases hkx : k = x
        · subst hkx; simp [modifyE, hk, lookupE, hx]
        · simp [modifyE, hk, lookupE, hkx, ih, hx]

theorem lookupE_append_sentinel (m : ExecRep) (id x : NodeID) (e : ExecutableNode) :
    lookupE (m ++ [(id, e)]) x =
      match lookupE m x with
      | some v => some v
      | none => if id = x then some e else none := by
  induction m with
  | nil => simp [lookupE]
  | cons p rest ih =>
    obtain ⟨k, v⟩ := p
    by_cases hk : k = x
    · simp [lookupE, hk]
    · simp [lookupE, hk, ih]

theorem lookupE_getOrCreateE (m : ExecRep) (id x : NodeID) :
    lookupE (getOrCreateE m id) x =
      if x = id then some ((lookupE m id).getD .zero) else lookupE m x := by
  unfold getOrCreateE
  by_cases hs : (lookupE m id).isSome
  · obtain ⟨e, he⟩ := Option.isSome_iff_exists.mp hs
    by_cases hx : x = id
    · subst hx; simp [hs, he]
    · simp [hs, hx]
  · have hnone : lookupE m id = none := Option.not_isSome_iff_eq_none.mp hs
    by_cases hx : x = id
    · subst hx
      simp [hs, lookupE_append_sentinel, hnone]
    · have : ¬ (id = x) := fun hh => hx hh.symm
      simp [hs, lookupE_append_sentinel, hx, this]
      rcases h : lookupE m x with _ | v <;> simp [this]

/-- Adding a target rewrites exactly the `depId` entry (creating it
zero-valued if needed). -/
theorem lookupE_addTargetE (m : ExecRep) (d t x : NodeID) :
    lookupE (addTargetE m d t) x =
      if x = d then
        some (let e := (lookupE m d).getD .zero
              { e with targetIDs := insertTarget e.targetIDs t })
      else lookupE m x := by
  unfold addTargetE
  rw [lookupE_modifyE]
  simp only [lookupE_getOrCreateE]
  by_cases hx : x = d
  · subst hx; simp
  · simp [hx]

theorem lookupE_setNodeE (m : ExecRep) (id : NodeID) (fn : NodeFn) (req : Nat) (x : NodeID) :
    lookupE (setNodeE m id fn req) x =
      if x = id then
        some { (lookupE m id).getD .zero with fn := some fn, required := req }
      else lookupE m x := by
  unfold setNodeE
  rw [lookupE_modifyE]
  simp only [lookupE_getOrCreateE]
  by_cases hx : x = id
  · subst hx; simp
  · simp [hx]

theorem mem_insertTarget {l : List NodeID} {t x : NodeID} :
    x ∈ insertTarget l t ↔ x ∈ l ∨ x = t := by
  unfold insertTarget
  by_cases h : t ∈ l
  · simp [h]
    intro hx; subst hx; exact h
  · simp [h]

theorem insertTarget_idem (l : List NodeID) (t : NodeID) :
    insertTarget (insertTarget l t) t = insertTarget l t := by
  unfold insertTarget
  by_cases h : t ∈ l
  · simp [h]
  · simp [h]

/-- Abbreviation for the update `depsFoldE` performs on one entry. -/
def withTarget (e : ExecutableNode) (t : NodeID) : ExecutableNode :=
  { e with targetIDs := insertTarget e.targetIDs t }

theorem depsFoldE_lookup (ds : List NodeID) (m : ExecRep) (tid x : NodeID) :
    lookupE (depsFoldE m ds tid) x =
      if x ∈ ds then some (withTarget ((lookupE m x).getD .zero) tid)
      else lookupE m x := by
  induction ds generalizing m with
  | nil => simp [depsFoldE]
  | cons d rest ih =>
    have hstep : depsFoldE m (d :: rest) tid = depsFoldE (addTargetE m d tid) rest tid := by
      simp [depsFoldE, List.foldl_cons]
    rw [hstep, ih]
    by_cases hx : x ∈ rest
    · simp only [if_pos hx, List.mem_cons, hx, or_true, if_pos]
      rw [lookupE_addTargetE]
      by_cases hxd : x = d
      · subst hxd
        rcases h : lookupE m x with _ | e <;>
          simp [h, withTarget, insertTarget_idem]
      · simp [hxd]
    · by_cases hxd : x = d
      · subst hxd
        simp only [List.mem_cons, true_or, if_pos, hx]
        rw [lookupE_addTargetE]
        simp [withTarget]
      · have : x ∉ d :: rest := by simp [hxd, hx]
        rw [if_neg this, if_neg hx, lookupE_addTargetE, if_neg hxd]

/-- Invariant of the compilation loop after processing the prefix `done` of
the graph's entries: which keys exist, each entry's exact target set, and
each entry's `fn`/`required` (set for processed graph nodes, still
zero-valued for entries created only as dependencies). -/
def CompiledAt (done : GraphRep) (m : ExecRep) : Prop :=
  ∀ x : NodeID,
    (lookupE m x = none → x ∉ keysG done ∧ ∀ p ∈ done, x ∉ p.2.Dependencies) ∧
    (∀ e, lookupE m x = some e →
      ((x ∈ keysG done ∨ ∃ p ∈ done, x ∈ p.2.Dependencies) ∧
       (∀ t, t ∈ e.targetIDs ↔ ∃ p ∈ done, p.1 = t ∧ x ∈ p.2.Dependencies) ∧
       (∀ nd, (x, nd) ∈ done → e.fn = some nd.Fn ∧ e.required = nd.Dependencies.length) ∧
       (x ∉ keysG done → e.fn = none ∧ e.required = 0)))

theorem compiledAt_nil : CompiledAt [] [] := by
  intro x
  refine ⟨fun _ => ⟨by simp [keysG], by simp⟩, fun e he => ?_⟩
  simp [lookupE] at he

theorem withTarget_mem {e : ExecutableNode} {t x : NodeID} :
    x ∈ (withTarget e t).targetIDs ↔ x ∈ e.targetIDs ∨ x = t := by
  simp [withTarget, mem_insertTarget]

theorem withTarget_fn (e : ExecutableNode) (t : NodeID) :
    (withTarget e t).fn = e.fn := rfl

theorem withTarget_required (e : ExecutableNode) (t : NodeID) :
    (withTarget e t).required = e.required := rfl

/-- The target set recorded for `x` after processing `done`, read through
`getD` so that absent entries behave like the zero value. -/
theorem compiledAt_targets {done : GraphRep} {m : ExecRep} (h : CompiledAt done m)
    (x t : NodeID) :
    t ∈ ((lookupE m x).getD ExecutableNode.zero).targetIDs ↔
      ∃ p ∈ done, p.1 = t ∧ x ∈ p.2.Dependencies := by
  rcases hmx : lookupE m x with _ | e₀
  · constructor
    · intro ht
      exact absurd ht (by simp [ExecutableNode.zero])
    · rintro ⟨p, hp, hpt, hpd⟩
      exact absurd hpd (((h x).1 hmx).2 p hp)
  · simpa using ((h x).2 e₀ hmx).2.1 t

theorem compiledAt_fnreq {done : GraphRep} {m : ExecRep} (h : CompiledAt done m)
    {x : NodeID} {nd : Node} (hnd : (x, nd) ∈ done) :
    ((lookupE m x).getD ExecutableNode.zero).fn = some nd.Fn ∧
    ((lookupE m x).getD ExecutableNode.zero).required = nd.Dependencies.length := by
  rcases hmx : lookupE m x with _ | e₀
  · exact absurd (List.mem_map_of_mem Prod.fst hnd) ((h x).1 hmx).1
  · simpa using ((h x).2 e₀ hmx).2.2.1 nd hnd

theorem compiledAt_zero_of_not_key {done : GraphRep} {m : ExecRep} (h : CompiledAt done m)
    {x : NodeID} (hx : x ∉ keysG done) :
    ((lookupE m x).getD ExecutableNode.zero).fn = none ∧
    ((lookupE m x).getD ExecutableNode.zero).required = 0 := by
  rcases hmx : lookupE m x with _ | e₀
  · simp [ExecutableNode.zero]
  · simpa using ((h x).2 e₀ hmx).2.2.2 hx

/-- Dependents recorded against `done ++ [(nid, gnode)]` decompose into the
old dependents and the new entry. -/
theorem dependents_append_iff (done : GraphRep) (nid : NodeID) (gnode : Node)
    (x t : NodeID) :
    (∃ p ∈ done ++ [(nid, gnode)], p.1 = t ∧ x ∈ p.2.Dependencies) ↔
      ((∃ p ∈ done, p.1 = t ∧ x ∈ p.2.Dependencies) ∨
        (t = nid ∧ x ∈ gnode.Dependencies)) := by
  constructor
  · rintro ⟨p, hp, hpt, hpd⟩
    rcases List.mem_append.mp hp with hp | hp
    · exact Or.inl ⟨p, hp, hpt, hpd⟩
    · simp at hp
      subst hp
      exact Or.inr ⟨hpt.symm, hpd⟩
  · rintro (⟨p, hp, hpt, hpd⟩ | ⟨rfl, hxd⟩)
    · exact ⟨p, List.mem_append_left _ hp, hpt, hpd⟩
    · exact ⟨(t, gnode), List.mem_append_right _ (by simp), rfl, hxd⟩

theorem compiledAt_step {done : GraphRep} {m : ExecRep} (nid : NodeID) (gnode : Node)
    (hnid : nid ∉ keysG done) (h : CompiledAt done m) :
    CompiledAt (done ++ [(nid, gnode)]) (compileStep m (nid, gnode)) := by
  have hkeys : keysG (done ++ [(nid, gnode)]) = keysG done ++ [nid] := by
    simp [keysG]
  have hm3 : ∀ y, lookupE (compileStep m (nid, gnode)) y =
      if y = nid then
        some { (lookupE (depsFoldE m gnode.Dependencies nid) nid).getD .zero with
               fn := some gnode.Fn, required := gnode.Dependencies.length }
      else lookupE (depsFoldE m gnode.Dependencies nid) y := by
    intro y
    exact lookupE_setNodeE (depsFoldE m gnode.Dependencies nid) nid gnode.Fn
      gnode.Dependencies.length y
  have hm2 : ∀ y, lookupE (depsFoldE m gnode.Dependencies nid) y =
      if y ∈ gnode.Dependencies then
        some (withTarget ((lookupE m y).getD .zero) nid)
      else lookupE m y := fun y => depsFoldE_lookup gnode.Dependencies m nid y
  -- the value stored for any `y` after the dependency fold, read through getD
  have hm2getD : ∀ y, (lookupE (depsFoldE m gnode.Dependencies nid) y).getD .zero =
      if y ∈ gnode.Dependencies then
        withTarget ((lookupE m y).getD .zero) nid
      else (lookupE m y).getD .zero := by
    intro y
    rw [hm2 y]
    by_cases hy : y ∈ gnode.Dependencies <;> simp [hy]
  intro x
  by_cases hx : x = nid
  · subst hx
    constructor
    · intro hnone
      rw [hm3 x, if_pos rfl] at hnone
      exact Option.noConfusion hnone
    · intro e he
      rw [hm3 x, if_pos rfl] at he
      injection he with he
      subst he
      refine ⟨Or.inl (by rw [hkeys]; exact List.mem_append_right _ (by simp)), ?_, ?_, ?_⟩
      · intro t
        show t ∈ ((lookupE (depsFoldE m gnode.Dependencies x) x).getD .zero).targetIDs ↔ _
        rw [hm2getD x, dependents_append_iff]
        by_cases hdep : x ∈ gnode.Dependencies
        · rw [if_pos hdep, withTarget_mem, compiledAt_targets h x t]
          constructor
          · rintro (hold | rfl)
            · exact Or.inl hold
            · exact Or.inr ⟨rfl, hdep⟩
          · rintro (hold | ⟨rfl, _⟩)
            · exact Or.inl hold
            · exact Or.inr rfl
        · rw [if_neg hdep, compiledAt_targets h x t]
          constructor
          · exact Or.inl
          · rintro (hold | ⟨rfl, hc⟩)
            · exact hold
            · exact absurd hc hdep
      · intro nd hnd
        rcases List.mem_append.mp hnd with hnd | hnd
        · exact absurd (List.mem_map_of_mem Prod.fst hnd) hnid
        · simp at hnd
          subst hnd
          exact ⟨rfl, rfl⟩
      · intro hnot
        exact absurd (by rw [hkeys]; exact List.mem_append_right _ (by simp)) hnot
  · rw [hm3 x, if_neg hx, hm2 x]
    by_cases hdep : x ∈ gnode.Dependencies
    · rw [if_pos hdep]
      constructor
      · intro hnone
        exact Option.noConfusion hnone
      · intro e he
        injection he with he
        subst he
        refine ⟨Or.inr ⟨(nid, gnode), List.mem_append_right _ (by simp), hdep⟩, ?_, ?_, ?_⟩
        · intro t
          rw [withTarget_mem, dependents_append_iff, compiledAt_targets h x t]
          constructor
          · rintro (hold | rfl)
            · exact Or.inl hold
            · exact Or.inr ⟨rfl, hdep⟩
          · rintro (hold | ⟨rfl, _⟩)
            · exact Or.inl hold
            · exact Or.inr rfl
        · intro nd hnd
          rcases List.mem_append.mp hnd with hnd | hnd
          · have := compiledAt_fnreq h hnd
            rw [withTarget_fn, withTarget_required]
            exact this
          · simp at hnd
            exact absurd hnd.1 hx
        · intro hnot
          rw [hkeys] at hnot
          have hnkey : x ∉ keysG done := fun hc => hnot (List.mem_append_left _ hc)
          have := compiledAt_zero_of_not_key h hnkey
          rw [withTarget_fn, withTarget_required]
          exact this
    · rw [if_neg hdep]
      constructor
      · intro hnone
        have base := (h x).1 hnone
        rw [hkeys]
        refine ⟨?_, ?_⟩
        · intro hc
          rcases List.mem_append.mp hc with hc | hc
          · exact base.1 hc
          · simp at hc
            exact hx hc
        · intro p hp
          rcases List.mem_append.mp hp with hp | hp
          · exact base.2 p hp
          · simp at hp
            subst hp
            exact hdep
      · intro e he
        have base := (h x).2 e he
        refine ⟨?_, ?_, ?_, ?_⟩
        · rcases base.1 with hc | ⟨p, hp, hpd⟩
          · exact Or.inl (by rw [hkeys]; exact List.mem_append_left _ hc)
          · exact Or.inr ⟨p, List.mem_append_left _ hp, hpd⟩
        · intro t
          rw [dependents_append_iff, base.2.1 t]
          constructor
          · exact Or.inl
          · rintro (hold | ⟨rfl, hc⟩)
            · exact hold
            · exact absurd hc hdep
        · intro nd hnd
          rcases List.mem_append.mp hnd with hnd | hnd
          · exact base.2.2.1 nd hnd
          · simp at hnd
            exact absurd hnd.1 hx
        · intro hnot
          rw [hkeys] at hnot
          exact base.2.2.2 (fun hc => hnot (List.mem_append_left _ hc))

theorem compiledAt_foldl (todo : GraphRep) :
    ∀ (done : GraphRep) (m : ExecRep),
      (keysG (done ++ todo)).Nodup → CompiledAt done m →
      CompiledAt (done ++ todo) (todo.foldl compileStep m) := by
  induction todo with
  | nil =>
    intro done m _ h
    simpa using h
  | cons p todo' ih =>
    intro done m hnd h
    obtain ⟨nid, gnode⟩ := p
    have hkeq : keysG (done ++ (nid, gnode) :: todo') =
        keysG done ++ nid :: keysG todo' := by
      simp [keysG]
    have hnid : nid ∉ keysG done := by
      rw [hkeq] at hnd
      rcases List.nodup_append.mp hnd with ⟨_, _, hdisj⟩
      intro hc
      exact hdisj hc (by simp)
    have hstep := compiledAt_step nid gnode hnid h
    have hassoc : done ++ (nid, gnode) :: todo' = (done ++ [(nid, gnode)]) ++ todo' := by
      simp
    rw [hassoc] at hnd ⊢
    exact ih (done ++ [(nid, gnode)]) (compileStep m (nid, gnode)) hnd hstep

/-- The compiled plan satisfies the full invariant over the whole graph. -/
theorem compile_compiledAt (g : Graph) (hk : (keysG g.nodes).Nodup) :
    CompiledAt g.nodes (g.CompileToExecutable).nodes := by
  have := compiledAt_foldl g.nodes [] [] (by simpa using hk) compiledAt_nil
  simpa [Graph.CompileToExecutable] using this

theorem keysE_modifyE (m : ExecRep) (id : NodeID) (f : ExecutableNode → ExecutableNode) :
    keysE (modifyE m id f) = keysE m := by
  induction m with
  | nil => rfl
  | cons p rest ih =>
    obtain ⟨k, v⟩ := p
    by_cases hk : k = id
    · simp [modifyE, hk, keysE]
    · simp [modifyE, hk, keysE]
      simpa [keysE] using ih

theorem keysE_nodup_getOrCreateE {m : ExecRep} (id : NodeID)
    (h : (keysE m).Nodup) : (keysE (getOrCreateE m id)).Nodup := by
  unfold getOrCreateE
  by_cases hs : (lookupE m id).isSome
  · simpa [hs] using h
  · have : id ∉ keysE m := fun hc => hs (lookupE_isSome_iff.mpr hc)
    simp [hs, keysE]
    rw [List.nodup_append]
    refine ⟨h, List.nodup_singleton id, ?_⟩
    intro a ha hb
    simp at hb
    subst hb
    exact this ha

theorem keysE_nodup_addTargetE {m : ExecRep} (d t : NodeID)
    (h : (keysE m).Nodup) : (keysE (addTargetE m d t)).Nodup := by
  unfold addTargetE
  rw [keysE_modifyE]
  exact keysE_nodup_getOrCreateE d h

theorem keysE_nodup_setNodeE {m : ExecRep} (id : NodeID) (fn : NodeFn) (req : Nat)
    (h : (keysE m).Nodup) : (keysE (setNodeE m id fn req)).Nodup := by
  unfold setNodeE
  rw [keysE_modifyE]
  exact keysE_nodup_getOrCreateE id h

theorem keysE_nodup_depsFoldE (ds : List NodeID) :
    ∀ (m : ExecRep) (tid : NodeID), (keysE m).Nodup →
      (keysE (depsFoldE m ds tid)).Nodup := by
  induction ds with
  | nil => intro m tid h; simpa [depsFoldE] using h
  | cons d rest ih =>
    intro m tid h
    have hstep : depsFoldE m (d :: rest) tid = depsFoldE (addTargetE m d tid) rest tid := by
      simp [depsFoldE, List.foldl_cons]
    rw [hstep]
    exact ih _ tid (keysE_nodup_addTargetE d tid h)

theorem keysE_nodup_compile (g : Graph) :
    (keysE (g.CompileToExecutable).nodes).Nodup := by
  have main : ∀ (todo : GraphRep) (m : ExecRep), (keysE m).Nodup →
      (keysE (todo.foldl compileStep m)).Nodup := by
    intro todo
    induction todo with
    | nil => intro m h; simpa using h
    | cons p todo' ih =>
      intro m h
      rw [List.foldl_cons]
      refine ih _ ?_
      unfold compileStep
      exact keysE_nodup_setNodeE _ _ _ (keysE_nodup_depsFoldE _ _ _ h)
  exact main g.nodes [] (by simp [keysE])

theorem mem_RootIds_iff {m : ExecRep} (hnd : (keysE m).Nodup) {id : NodeID} :
    id ∈ RootIds m ↔ ∃ e, lookupE m id = some e ∧ e.required = 0 := by
  unfold RootIds
  constructor
  · intro hmem
    rcases List.mem_map.mp hmem with ⟨p, hp, hp1⟩
    obtain ⟨k, e⟩ := p
    rcases List.mem_filter.mp hp with ⟨hpm, hcond⟩
    have hreq : e.required = 0 := by
      simpa using hcond
    subst hp1
    exact ⟨e, lookupE_of_mem_nodup hnd hpm, hreq⟩
  · rintro ⟨e, he, hreq⟩
    have hpm : (id, e) ∈ m := lookupE_mem he
    have : (id, e) ∈ m.filter (fun p => p.2.required == 0) := by
      rw [List.mem_filter]
      exact ⟨hpm, by simpa using hreq⟩
    exact List.mem_map.mpr ⟨(id, e), this, rfl⟩

/-- Claim C7: for every graph (whose keys are unique, as Go maps guarantee),
the compiled plan gives every graph node an execution node whose `required`
equals the size of its dependency set and whose `fn` is the node's work
function; for every dependency edge the dependent's identifier is in the
dependency's `targets` (and targets contain nothing else); and the plan's
roots are exactly the execution nodes with `required = 0`. -/
theorem compile_topology (g : Graph) (hk : (keysG g.nodes).Nodup) :
    (∀ p ∈ g.nodes, ∃ e, lookupE (g.CompileToExecutable).nodes p.1 = some e ∧
      e.required = p.2.Dependencies.length ∧ e.fn = some p.2.Fn ∧
      (∀ t, t ∈ e.targetIDs ↔ ∃ q ∈ g.nodes, q.1 = t ∧ p.1 ∈ q.2.Dependencies)) ∧
    (∀ p ∈ g.nodes, ∀ d ∈ p.2.Dependencies,
      ∃ e, lookupE (g.CompileToExecutable).nodes d = some e ∧ p.1 ∈ e.targetIDs) ∧
    (∀ id, id ∈ RootIds (g.CompileToExecutable).nodes ↔
      ∃ e, lookupE (g.CompileToExecutable).nodes id = some e ∧ e.required = 0) := by
  have hc := compile_compiledAt g hk
  refine ⟨?_, ?_, ?_⟩
  · intro p hp
    rcases he : lookupE (g.CompileToExecutable).nodes p.1 with _ | e
    · exact absurd (List.mem_map_of_mem Prod.fst hp) ((hc p.1).1 he).1
    · have main := (hc p.1).2 e he
      obtain ⟨hfn, hreq⟩ := main.2.2.1 p.2 (by simpa using hp)
      exact ⟨e, rfl, hreq, hfn, main.2.1⟩
  · intro p hp d hd
    rcases he : lookupE (g.CompileToExecutable).nodes d with _ | e
    · exact absurd hd (((hc d).1 he).2 p hp)
    · have main := (hc d).2 e he
      exact ⟨e, rfl, (main.2.1 p.1).mpr ⟨p, hp, rfl, hd⟩⟩
  · intro id
    exact mem_RootIds_iff (keysE_nodup_compile g)

/-- Witness for C7: the root characterization at the concrete diamond. -/
theorem compile_topology_witness :
    "a" ∈ RootIds graphDiamond.CompileToExecutable.nodes ↔
      ∃ e, lookupE graphDiamond.CompileToExecutable.nodes "a" = some e ∧
        e.required = 0 :=
  (compile_topology graphDiamond (by decide)).2.2 "a"

/-- An error surfacing from `runList` is an error of one of its members
(or it is the fuel marker). -/
theorem runList_error (recur : NodeID → Except RunPanic (List NodeID)) :
    ∀ l : List NodeID, (∀ t ∈ l, ∀ err, recur t = .error err → err = .fuelOut) →
      ∀ err, runList recur l = .error err → err = .fuelOut := by
  intro l
  induction l with
  | nil =>
    intro _ err h
    simp [runList] at h
  | cons t rest ih =>
    intro hall err h
    rcases hr : recur t with e | tr
    · rw [runList, hr] at h
      injection h with h
      exact h ▸ hall t (by simp) e hr
    · rcases hrest : runList recur rest with e2 | trs
      · rw [runList, hr, hrest] at h
        injection h with h
        exact h ▸ ih (fun u hu => hall u (by simp [hu])) e2 hrest
      · rw [runList, hr, hrest] at h
        exact absurd h (by simp)

/-- Claim C10: for a graph built through successful `Add` calls (unique
keys, dependencies present), the compiled plan is closed under targets —
every identifier in any execution node's `targets` has an execution node —
and the recursive dispatch `runNode`, started anywhere inside the plan, can
never fail by dereferencing a missing execution node or a nil work
function: the only possible error is the embedding's fuel marker. -/
theorem compile_closed_run_safe (g : Graph) (hk : (keysG g.nodes).Nodup)
    (hdeps : depsPresent g.nodes) :
    (∀ id e, lookupE (g.CompileToExecutable).nodes id = some e →
      ∀ t ∈ e.targetIDs, (lookupE (g.CompileToExecutable).nodes t).isSome) ∧
    (∀ r ∈ RootIds (g.CompileToExecutable).nodes,
      r ∈ keysE (g.CompileToExecutable).nodes) ∧
    (∀ fuel id err, id ∈ keysE (g.CompileToExecutable).nodes →
      g.CompileToExecutable.runNode fuel id = .error err → err = .fuelOut) := by
  have hc := compile_compiledAt g hk
  have hGtoE : ∀ x, x ∈ keysG g.nodes → x ∈ keysE (g.CompileToExecutable).nodes := by
    intro x hx
    rcases he : lookupE (g.CompileToExecutable).nodes x with _ | e
    · exact absurd hx ((hc x).1 he).1
    · exact lookupE_isSome_iff.mp (by simp [he])
  have hEtoG : ∀ x, x ∈ keysE (g.CompileToExecutable).nodes → x ∈ keysG g.nodes := by
    intro x hx
    obtain ⟨e, he⟩ := Option.isSome_iff_exists.mp (lookupE_isSome_iff.mpr hx)
    rcases ((hc x).2 e he).1 with hg | ⟨p, hp, hpd⟩
    · exact hg
    · exact lookupNode_isSome_iff.mp (hdeps p hp x hpd)
  have hclosure : ∀ id e, lookupE (g.CompileToExecutable).nodes id = some e →
      ∀ t ∈ e.targetIDs, t ∈ keysE (g.CompileToExecutable).nodes := by
    intro id e he t ht
    obtain ⟨q, hq, hqt, _⟩ := (((hc id).2 e he).2.1 t).mp ht
    exact hGtoE t (hqt ▸ List.mem_map_of_mem Prod.fst hq)
  have hfn : ∀ id, id ∈ keysE (g.CompileToExecutable).nodes →
      ∀ e, lookupE (g.CompileToExecutable).nodes id = some e → e.fn.isSome := by
    intro id hid e he
    obtain ⟨p, hp, hp1⟩ := List.mem_map.mp (hEtoG id hid)
    have hpl : (id, p.2) ∈ g.nodes := by
      rw [← hp1]
      simpa using hp
    have := ((hc id).2 e he).2.2.1 p.2 hpl
    simp [this.1]
  refine ⟨?_, ?_, ?_⟩
  · intro id e he t ht
    exact lookupE_isSome_iff.mpr (hclosure id e he t ht)
  · intro r hr
    rcases List.mem_map.mp hr with ⟨p, hp, hp1⟩
    rw [← hp1]
    exact List.mem_map_of_mem Prod.fst (List.mem_of_mem_filter hp)
  · intro fuel
    induction fuel with
    | zero =>
      intro id err _ h
      rw [ParallelizedExecutableGraph.runNode] at h
      injection h with h
      exact h.symm
    | succ n ih =>
      intro id err hid h
      obtain ⟨e, he⟩ := Option.isSome_iff_exists.mp (lookupE_isSome_iff.mpr hid)
      obtain ⟨f, hf⟩ := Option.isSome_iff_exists.mp (hfn id hid e he)
      rw [ParallelizedExecutableGraph.runNode] at h
      simp only [he, hf] at h
      rcases hrl : runList (g.CompileToExecutable.runNode n) e.targetIDs with e2 | tr
      · simp only [hrl] at h
        injection h with h
        exact h ▸ runList_error _ _
          (fun t ht err' h' => ih t err' (hclosure id e he t ht) h') e2 hrl
      · simp only [hrl] at h
        exact absurd h (by simp)

/-- Witness for C10: inside the compiled diamond plan, `runNode` at the
root `"a"` cannot fail with a nil-node dereference. -/
theorem compile_closed_run_safe_witness :
    graphDiamond.CompileToExecutable.runNode 4 "a" ≠ .error (.nilNode "c") :=
  fun h => nomatch
    ((compile_closed_run_safe graphDiamond (by decide) (by decide)).2.2
      4 "a" (.nilNode "c") (by decide) h)

/-! ## Correctness of the topological sort -/

theorem lookupNode_of_mem_nodup {m : GraphRep} {id : NodeID} {nd : Node}
    (hnd : (keysG m).Nodup) (h : (id, nd) ∈ m) : lookupNode m id = some nd := by
  induction m with
  | nil => simp at h
  | cons p rest ih =>
    obtain ⟨k, v⟩ := p
    simp only [keysG, List.map_cons, List.nodup_cons] at hnd
    rcases List.mem_cons.mp h with h1 | h1
    · injection h1 with hk hv
      subst hk; subst hv
      simp [lookupNode]
    · have hkne : k ≠ id := by
        intro hk; subst hk
        exact hnd.1 (List.mem_map_of_mem Prod.fst h1)
      simp [lookupNode, hkne]
      exact ih hnd.2 h1

/-- The number of graph keys not yet visited; the measure showing `Sort`'s
fuel suffices. -/
def unvisitedCount (g : GraphRep) (visited : List NodeID) : Nat :=
  ((keysG g).toFinset \ visited.toFinset).card

theorem unvisitedCount_le (g : GraphRep) (visited : List NodeID) :
    unvisitedCount g visited ≤ g.length := by
  calc ((keysG g).toFinset \ visited.toFinset).card
      ≤ (keysG g).toFinset.card := Finset.card_le_card Finset.sdiff_subset
    _ ≤ (keysG g).length := (keysG g).toFinset_card_le
    _ = g.length := by simp [keysG]

theorem unvisitedCount_anti (g : GraphRep) {v v' : List NodeID}
    (h : ∀ x ∈ v, x ∈ v') : unvisitedCount g v' ≤ unvisitedCount g v := by
  refine Finset.card_le_card (Finset.sdiff_subset_sdiff (Finset.Subset.refl _) ?_)
  intro x hx
  rw [List.mem_toFinset] at hx ⊢
  exact h x hx

theorem unvisitedCount_cons {g : GraphRep} {name : NodeID} {v : List NodeID}
    (hmem : name ∈ keysG g) (hnv : name ∉ v) :
    unvisitedCount g (name :: v) = unvisitedCount g v - 1 ∧
      1 ≤ unvisitedCount g v := by
  have hd : (keysG g).toFinset \ (name :: v).toFinset =
      ((keysG g).toFinset \ v.toFinset).erase name := by
    rw [List.toFinset_cons, Finset.sdiff_insert]
  have hmemd : name ∈ (keysG g).toFinset \ v.toFinset := by
    rw [Finset.mem_sdiff, List.mem_toFinset, List.mem_toFinset]
    exact ⟨hmem, hnv⟩
  constructor
  · rw [unvisitedCount, unvisitedCount, hd, Finset.card_erase_of_mem hmemd]
  · exact Finset.card_pos.mpr ⟨name, hmemd⟩

theorem visitDeps_visited_mono (g : GraphRep)
    (recur : NodeID → List NodeID → List NodeID → List NodeID →
      Except GraphError (List NodeID × List NodeID))
    (stackC : List NodeID)
    (hrec : ∀ n ns v r v' r', recur n ns v r = .ok (v', r') → ∀ x ∈ v, x ∈ v') :
    ∀ (ns : List NodeID) (v r v' r' : List NodeID),
      visitDeps g recur stackC ns v r = .ok (v', r') → ∀ x ∈ v, x ∈ v' := by
  intro ns
  induction ns with
  | nil =>
    intro v r v' r' h x hx
    simp only [visitDeps] at h
    injection h with h
    cases h
    exact hx
  | cons n rest ih =>
    intro v r v' r' h x hx
    simp only [visitDeps] at h
    by_cases hv : n ∈ v
    · rw [if_pos hv] at h
      by_cases hs : n ∈ stackC
      · rw [if_pos hs] at h
        exact absurd h (by simp)
      · rw [if_neg hs] at h
        exact ih v r v' r' h x hx
    · rw [if_neg hv] at h
      rcases hlook : lookupNode g n with _ | nd
      · simp only [hlook] at h
        exact absurd h (by simp)
      · simp only [hlook] at h
        rcases hr : recur n nd.Dependencies v r with e | p
        · simp only [hr] at h
          exact absurd h (by simp)
        · obtain ⟨v₁, r₁⟩ := p
          simp only [hr] at h
          exact ih v₁ r₁ v' r' h x (hrec n _ v r v₁ r₁ hr x hx)

theorem visitNode_visited_mono (g : GraphRep)
    (place : List NodeID → NodeID → List NodeID) :
    ∀ (fuel : Nat) (name : NodeID) (ns stack v r v' r' : List NodeID),
      visitNode g place fuel name ns stack v r = .ok (v', r') →
      ∀ x ∈ v, x ∈ v' := by
  intro fuel
  induction fuel with
  | zero =>
    intro name ns stack v r v' r' h
    simp only [visitNode] at h
    exact absurd h (by simp)
  | succ f ih =>
    intro name ns stack v r v' r' h x hx
    simp only [visitNode] at h
    rcases hd : visitDeps g (fun n ns v r => visitNode g place f n ns (name :: stack) v r)
        (name :: stack) ns (name :: v) r with e | p
    · simp only [hd] at h
      exact absurd h (by simp)
    · obtain ⟨v₂, r₂⟩ := p
      simp only [hd] at h
      have hmono := visitDeps_visited_mono g _ (name :: stack)
        (fun n' ns' v₀ r₀ v₀' r₀' hh => ih n' ns' (name :: stack) v₀ r₀ v₀' r₀' hh)
        ns (name :: v) r v₂ r₂ hd
      injection h with h
      have hv2 : v₂ = v' := congrArg Prod.fst h
      exact hv2 ▸ hmono x (by simp [hx])

/-- Two runs of the visit machinery that differ only in how finished nodes
are placed into the results agree on control flow: they produce the same
error, or the same visited set together with results obtained by folding
the respective placement function over the same finish sequence. -/
abbrev Aligned (p₁ p₂ : List NodeID → NodeID → List NodeID) (r₁ r₂ : List NodeID)
    (o₁ o₂ : Except GraphError (List NodeID × List NodeID)) : Prop :=
  (∃ e, o₁ = .error e ∧ o₂ = .error e) ∨
  (∃ (v w : List NodeID), o₁ = .ok (v, w.foldl p₁ r₁) ∧ o₂ = .ok (v, w.foldl p₂ r₂))

theorem visitDeps_bridge (g : GraphRep) (p₁ p₂ : List NodeID → NodeID → List NodeID)
    (stackC : List NodeID)
    (recur₁ recur₂ : NodeID → List NodeID → List NodeID → List NodeID →
      Except GraphError (List NodeID × List NodeID))
    (hrec : ∀ n ns v r₁ r₂, Aligned p₁ p₂ r₁ r₂ (recur₁ n ns v r₁) (recur₂ n ns v r₂)) :
    ∀ (ns : List NodeID) (v r₁ r₂ : List NodeID),
      Aligned p₁ p₂ r₁ r₂ (visitDeps g recur₁ stackC ns v r₁)
        (visitDeps g recur₂ stackC ns v r₂) := by
  intro ns
  induction ns with
  | nil =>
    intro v r₁ r₂
    exact Or.inr ⟨v, [], by simp [visitDeps], by simp [visitDeps]⟩
  | cons n rest ih =>
    intro v r₁ r₂
    simp only [visitDeps]
    by_cases hv : n ∈ v
    · rw [if_pos hv, if_pos hv]
      by_cases hs : n ∈ stackC
      · rw [if_pos hs, if_pos hs]
        exact Or.inl ⟨.cycleDetected n, rfl, rfl⟩
      · rw [if_neg hs, if_neg hs]
        exact ih v r₁ r₂
    · rw [if_neg hv, if_neg hv]
      rcases hlook : lookupNode g n with _ | nd
      · exact Or.inl ⟨.nodeNotFound n, rfl, rfl⟩
      · dsimp only
        rcases hrec n nd.Dependencies v r₁ r₂ with ⟨e, he₁, he₂⟩ | ⟨v₁, w₁, ho₁, ho₂⟩
        · rw [he₁, he₂]
          exact Or.inl ⟨e, rfl, rfl⟩
        · rw [ho₁, ho₂]
          dsimp only
          rcases ih v₁ (w₁.foldl p₁ r₁) (w₁.foldl p₂ r₂) with ⟨e, he₁, he₂⟩ |
            ⟨v₂, w₂, hh₁, hh₂⟩
          · rw [he₁, he₂]
            exact Or.inl ⟨e, rfl, rfl⟩
          · rw [hh₁, hh₂]
            refine Or.inr ⟨v₂, w₁ ++ w₂, ?_, ?_⟩
            · rw [List.foldl_append]
            · rw [List.foldl_append]

theorem visitNode_bridge (g : GraphRep) (p₁ p₂ : List NodeID → NodeID → List NodeID) :
    ∀ (fuel : Nat) (name : NodeID) (ns stack v r₁ r₂ : List NodeID),
      Aligned p₁ p₂ r₁ r₂ (visitNode g p₁ fuel name ns stack v r₁)
        (visitNode g p₂ fuel name ns stack v r₂) := by
  intro fuel
  induction fuel with
  | zero =>
    intro name ns stack v r₁ r₂
    exact Or.inl ⟨.outOfFuel, by simp [visitNode], by simp [visitNode]⟩
  | succ f ih =>
    intro name ns stack v r₁ r₂
    simp only [visitNode]
    have hb := visitDeps_bridge g p₁ p₂ (name :: stack)
      (fun n ns v r => visitNode g p₁ f n ns (name :: stack) v r)
      (fun n ns v r => visitNode g p₂ f n ns (name :: stack) v r)
      (fun n ns v r₁' r₂' => ih n ns (name :: stack) v r₁' r₂')
      ns (name :: v) r₁ r₂
    rcases hb with ⟨e, he₁, he₂⟩ | ⟨v₁, w, hh₁, hh₂⟩
    · rw [he₁, he₂]
      exact Or.inl ⟨e, rfl, rfl⟩
    · rw [hh₁, hh₂]
      refine Or.inr ⟨v₁, w ++ [name], ?_, ?_⟩
      · rw [List.foldl_append]
        rfl
      · rw [List.foldl_append]
        rfl

theorem sortLoop_bridge (g : GraphRep) (p₁ p₂ : List NodeID → NodeID → List NodeID)
    (fuel : Nat) :
    ∀ (todo : GraphRep) (v r₁ r₂ : List NodeID),
      Aligned p₁ p₂ r₁ r₂ (sortLoop g p₁ fuel todo v r₁)
        (sortLoop g p₂ fuel todo v r₂) := by
  intro todo
  induction todo with
  | nil =>
    intro v r₁ r₂
    exact Or.inr ⟨v, [], by simp [sortLoop], by simp [sortLoop]⟩
  | cons p rest ih =>
    intro v r₁ r₂
    obtain ⟨n, node⟩ := p
    simp only [sortLoop]
    by_cases hv : n ∈ v
    · rw [if_pos hv, if_pos hv]
      exact ih v r₁ r₂
    · rw [if_neg hv, if_neg hv]
      rcases visitNode_bridge g p₁ p₂ fuel n node.Dependencies [] v r₁ r₂ with
        ⟨e, he₁, he₂⟩ | ⟨v₁, w₁, hh₁, hh₂⟩
      · rw [he₁, he₂]
        exact Or.inl ⟨e, rfl, rfl⟩
      · rw [hh₁, hh₂]
        dsimp only
        rcases ih v₁ (w₁.foldl p₁ r₁) (w₁.foldl p₂ r₂) with ⟨e, he₁, he₂⟩ |
          ⟨v₂, w₂, hg₁, hg₂⟩
        · rw [he₁, he₂]
          exact Or.inl ⟨e, rfl, rfl⟩
        · rw [hg₁, hg₂]
          refine Or.inr ⟨v₂, w₁ ++ w₂, ?_, ?_⟩
          · rw [List.foldl_append]
          · rw [List.foldl_append]

/-- Folding the append collector reproduces the finish sequence. -/
theorem foldl_pushL (w : List NodeID) : ∀ acc : List NodeID,
    w.foldl pushL acc = acc ++ w := by
  induction w with
  | nil => intro acc; simp
  | cons x w' ih =>
    intro acc
    rw [List.foldl_cons]
    rw [ih (pushL acc x)]
    simp [pushL]

/-- Invariant of the ghost (`pushL`) sort run: `visited` is partitioned
into the current stack and the finished list `L`; `L` is duplicate-free,
consists of graph nodes, is closed under dependencies, never lists a node
before one of its dependencies, and contains no self-dependent node. -/
structure SortInv (g : GraphRep) (stack visited L : List NodeID) : Prop where
  tri : ∀ x, x ∈ visited ↔ (x ∈ stack ∨ x ∈ L)
  disj : ∀ x ∈ L, x ∉ stack
  nodupL : L.Nodup
  inG : ∀ a ∈ L, (lookupNode g a).isSome
  closed : ∀ a ∈ L, ∀ b, Edge g a b → b ∈ L
  pairw : L.Pairwise (fun a b => ¬ Edge g a b)
  irrefl : ∀ a ∈ L, ¬ Edge g a a

theorem visitDeps_inv (g : GraphRep) (stackC : List NodeID)
    (recur : NodeID → List NodeID → List NodeID → List NodeID →
      Except GraphError (List NodeID × List NodeID))
    (hrec : ∀ n nd v L, lookupNode g n = some nd → SortInv g stackC v L → n ∉ v →
      (∃ e, recur n nd.Dependencies v L = .error e) ∨
      (∃ v' L', recur n nd.Dependencies v L = .ok (v', L') ∧ SortInv g stackC v' L' ∧
        n ∈ L' ∧ (∀ x ∈ L, x ∈ L') ∧ (∀ x ∈ v, x ∈ v'))) :
    ∀ (ns v L : List NodeID), SortInv g stackC v L →
      (∃ e, visitDeps g recur stackC ns v L = .error e) ∨
      (∃ v' L', visitDeps g recur stackC ns v L = .ok (v', L') ∧
        SortInv g stackC v' L' ∧
        (∀ x ∈ L, x ∈ L') ∧ (∀ x ∈ v, x ∈ v') ∧ (∀ n ∈ ns, n ∈ L')) := by
  intro ns
  induction ns with
  | nil =>
    intro v L hinv
    exact Or.inr ⟨v, L, by simp [visitDeps], hinv, fun x hx => hx, fun x hx => hx,
      by simp⟩
  | cons n rest ih =>
    intro v L hinv
    by_cases hv : n ∈ v
    · by_cases hs : n ∈ stackC
      · exact Or.inl ⟨.cycleDetected n, by simp [visitDeps, hv, hs]⟩
      · have hnL : n ∈ L := by
          rcases (hinv.tri n).mp hv with h | h
          · exact absurd h hs
          · exact h
        rcases ih v L hinv with ⟨e, he⟩ | ⟨v', L', heq, hinv', hL, hvm, hns⟩
        · exact Or.inl ⟨e, by simp [visitDeps, hv, hs, he]⟩
        · refine Or.inr ⟨v', L', by simp [visitDeps, hv, hs, heq], hinv', hL, hvm, ?_⟩
          intro m hm
          rcases List.mem_cons.mp hm with rfl | hm
          · exact hL m hnL
          · exact hns m hm
    · rcases hlook : lookupNode g n with _ | nd
      · exact Or.inl ⟨.nodeNotFound n, by simp [visitDeps, hv, hlook]⟩
      · rcases hrec n nd v L hlook hinv hv with ⟨e, he⟩ |
          ⟨v₁, L₁, heq, hinv₁, hnL₁, hL₁, hv₁⟩
        · exact Or.inl ⟨e, by simp [visitDeps, hv, hlook, he]⟩
        · rcases ih v₁ L₁ hinv₁ with ⟨e, he⟩ | ⟨v', L', heq', hinv', hL', hvm', hns'⟩
          · exact Or.inl ⟨e, by simp [visitDeps, hv, hlook, heq, he]⟩
          · refine Or.inr ⟨v', L', by simp [visitDeps, hv, hlook, heq, heq'], hinv',
              fun x hx => hL' x (hL₁ x hx), fun x hx => hvm' x (hv₁ x hx), ?_⟩
            intro m hm
            rcases List.mem_cons.mp hm with rfl | hm
            · exact hL' m hnL₁
            · exact hns' m hm

theorem visitNode_inv (g : GraphRep) :
    ∀ (fuel : Nat) (name : NodeID) (ndname : Node) (stack v L : List NodeID),
      lookupNode g name = some ndname → SortInv g stack v L → name ∉ v →
      (∃ e, visitNode g pushL fuel name ndname.Dependencies stack v L = .error e) ∨
      (∃ v' L', visitNode g pushL fuel name ndname.Dependencies stack v L = .ok (v', L') ∧
        SortInv g stack v' L' ∧ name ∈ L' ∧ (∀ x ∈ L, x ∈ L') ∧ (∀ x ∈ v, x ∈ v')) := by
  intro fuel
  induction fuel with
  | zero =>
    intro name ndname stack v L _ _ _
    exact Or.inl ⟨.outOfFuel, by simp [visitNode]⟩
  | succ f ih =>
    intro name ndname stack v L hname hinv hnv
    have hstack_sub : ∀ x ∈ stack, x ∈ v := fun x hx => (hinv.tri x).mpr (Or.inl hx)
    have hname_stack : name ∉ stack := fun hc => hnv (hstack_sub name hc)
    have hname_L : name ∉ L := fun hc => hnv ((hinv.tri name).mpr (Or.inr hc))
    have hinv₁ : SortInv g (name :: stack) (name :: v) L := by
      refine ⟨?_, ?_, hinv.nodupL, hinv.inG, hinv.closed, hinv.pairw, hinv.irrefl⟩
      · intro x
        constructor
        · intro hx
          rcases List.mem_cons.mp hx with rfl | hx
          · exact Or.inl (by simp)
          · rcases (hinv.tri x).mp hx with h | h
            · exact Or.inl (List.mem_cons_of_mem _ h)
            · exact Or.inr h
        · intro hx
          rcases hx with hx | hx
          · rcases List.mem_cons.mp hx with rfl | hx
            · simp
            · exact List.mem_cons_of_mem _ ((hinv.tri x).mpr (Or.inl hx))
          · exact List.mem_cons_of_mem _ ((hinv.tri x).mpr (Or.inr hx))
      · intro x hxL hc
        rcases List.mem_cons.mp hc with rfl | hc
        · exact hname_L hxL
        · exact hinv.disj x hxL hc
    have hvd := visitDeps_inv g (name :: stack)
      (fun n ns v r => visitNode g pushL f n ns (name :: stack) v r)
      (fun n nd v' L' hl hi hn => ih n nd (name :: stack) v' L' hl hi hn)
      ndname.Dependencies (name :: v) L hinv₁
    rcases hvd with ⟨e, he⟩ | ⟨v₂, L₂, heq, hinv₂, hL₂, hv₂, hns₂⟩
    · exact Or.inl ⟨e, by simp [visitNode, he]⟩
    · have hname_L₂ : name ∉ L₂ := fun hc => hinv₂.disj name hc (by simp)
      have hname_v₂ : name ∈ v₂ := hv₂ name (by simp)
      refine Or.inr ⟨v₂, L₂ ++ [name], by simp [visitNode, heq, pushL], ?_, by simp,
        fun x hx => List.mem_append_left _ (hL₂ x hx),
        fun x hx => hv₂ x (List.mem_cons_of_mem _ hx)⟩
      refine ⟨?_, ?_, ?_, ?_, ?_, ?_, ?_⟩
      · intro x
        constructor
        · intro hx
          rcases (hinv₂.tri x).mp hx with h | h
          · rcases List.mem_cons.mp h with rfl | h
            · exact Or.inr (List.mem_append_right _ (by simp))
            · exact Or.inl h
          · exact Or.inr (List.mem_append_left _ h)
        · intro hx
          rcases hx with hx | hx
          · exact (hinv₂.tri x).mpr (Or.inl (List.mem_cons_of_mem _ hx))
          · rcases List.mem_append.mp hx with hx | hx
            · exact (hinv₂.tri x).mpr (Or.inr hx)
            · simp at hx
              subst hx
              exact hname_v₂
      · intro x hx hc
        rcases List.mem_append.mp hx with hx | hx
        · exact hinv₂.disj x hx (List.mem_cons_of_mem _ hc)
        · simp at hx
          subst hx
          exact hname_stack hc
      · rw [List.nodup_append]
        refine ⟨hinv₂.nodupL, List.nodup_singleton _, ?_⟩
        intro a ha hb
        simp at hb
        subst hb
        exact hname_L₂ ha
      · intro a ha
        rcases List.mem_append.mp ha with ha | ha
        · exact hinv₂.inG a ha
        · simp at ha
          subst ha
          simp [hname]
      · intro a ha b hab
        rcases List.mem_append.mp ha with ha | ha
        · exact List.mem_append_left _ (hinv₂.closed a ha b hab)
        · simp at ha
          subst ha
          obtain ⟨nd', hnd', hbdep⟩ := hab
          rw [hname] at hnd'
          injection hnd' with hnd'
          subst hnd'
          exact List.mem_append_left _ (hns₂ b hbdep)
      · rw [List.pairwise_append]
        refine ⟨hinv₂.pairw, List.pairwise_singleton _ _, ?_⟩
        intro a ha b hb
        simp at hb
        subst hb
        intro hedge
        exact hname_L₂ (hinv₂.closed a ha _ hedge)
      · intro a ha
        rcases List.mem_append.mp ha with ha | ha
        · exact hinv₂.irrefl a ha
        · simp at ha
          subst ha
          intro hedge
          obtain ⟨nd', hnd', hbdep⟩ := hedge
          rw [hname] at hnd'
          injection hnd' with hnd'
          subst hnd'
          exact hname_L₂ (hns₂ a hbdep)

theorem sortInv_init (g : GraphRep) : SortInv g [] [] [] := by
  refine ⟨by simp, by simp, List.nodup_nil, by simp, by simp, List.Pairwise.nil, by simp⟩

theorem sortLoop_inv (g : GraphRep) (fuel : Nat) :
    ∀ (todo : GraphRep) (v L : List NodeID),
      (∀ p ∈ todo, lookupNode g p.1 = some p.2) →
      SortInv g [] v L →
      (∃ e, sortLoop g pushL fuel todo v L = .error e) ∨
      (∃ v' L', sortLoop g pushL fuel todo v L = .ok (v', L') ∧ SortInv g [] v' L' ∧
        (∀ x ∈ L, x ∈ L') ∧ (∀ x ∈ v, x ∈ v') ∧ (∀ p ∈ todo, p.1 ∈ v')) := by
  intro todo
  induction todo with
  | nil =>
    intro v L _ hinv
    exact Or.inr ⟨v, L, by simp [sortLoop], hinv, fun x hx => hx, fun x hx => hx,
      by simp⟩
  | cons p rest ih =>
    intro v L hkl hinv
    obtain ⟨n, node⟩ := p
    have hlook : lookupNode g n = some node := hkl (n, node) (by simp)
    by_cases hv : n ∈ v
    · rcases ih v L (fun q hq => hkl q (List.mem_cons_of_mem _ hq)) hinv with
        ⟨e, he⟩ | ⟨v', L', heq, hinv', hL, hvm, hrest⟩
      · exact Or.inl ⟨e, by simp [sortLoop, hv, he]⟩
      · refine Or.inr ⟨v', L', by simp [sortLoop, hv, heq], hinv', hL, hvm, ?_⟩
        intro q hq
        rcases List.mem_cons.mp hq with rfl | hq
        · exact hvm n hv
        · exact hrest q hq
    · rcases visitNode_inv g fuel n node [] v L hlook hinv hv with
        ⟨e, he⟩ | ⟨v₁, L₁, heq, hinv₁, hnL₁, hL₁, hv₁⟩
      · exact Or.inl ⟨e, by simp [sortLoop, hv, he]⟩
      · rcases ih v₁ L₁ (fun q hq => hkl q (List.mem_cons_of_mem _ hq)) hinv₁ with
          ⟨e, he⟩ | ⟨v', L', heq', hinv', hL', hvm', hrest'⟩
        · exact Or.inl ⟨e, by simp [sortLoop, hv, heq, he]⟩
        · refine Or.inr ⟨v', L', by simp [sortLoop, hv, heq, heq'], hinv',
            fun x hx => hL' x (hL₁ x hx), fun x hx => hvm' x (hv₁ x hx), ?_⟩
          intro q hq
          rcases List.mem_cons.mp hq with rfl | hq
          · exact hvm' n ((hinv₁.tri n).mpr (Or.inr hnL₁))
          · exact hrest' q hq

/-- Everything a successful ghost sort returns: a duplicate-free list with
exactly the graph's keys, in an order where no node precedes anything it
depends on, with no self-dependent node, closed under dependencies. -/
theorem sortAppend_spec (g : Graph)
    (hkl : ∀ p ∈ g.nodes, lookupNode g.nodes p.1 = some p.2)
    {L : List NodeID} (h : g.sortAppend = .ok L) :
    L.Nodup ∧ (∀ x, x ∈ L ↔ x ∈ keysG g.nodes) ∧
    L.Pairwise (fun a b => ¬ Edge g.nodes a b) ∧
    (∀ a ∈ L, ¬ Edge g.nodes a a) ∧
    (∀ a ∈ L, ∀ b, Edge g.nodes a b → b ∈ L) := by
  rcases sortLoop_inv g.nodes (g.nodes.length + 1) g.nodes [] [] hkl
      (sortInv_init g.nodes) with ⟨e, he⟩ | ⟨v', L', heq, hinv, _, _, hkeys⟩
  · rw [Graph.sortAppend, sortWith] at h
    simp only [he] at h
    exact absurd h (by simp)
  · rw [Graph.sortAppend, sortWith] at h
    simp only [heq] at h
    injection h with h
    subst h
    have hmem : ∀ x, x ∈ L' ↔ x ∈ keysG g.nodes := by
      intro x
      constructor
      · intro hx
        exact lookupNode_isSome_iff.mp (hinv.inG x hx)
      · intro hx
        rcases List.mem_map.mp hx with ⟨p, hp, hpx⟩
        have := hkeys p hp
        rw [hpx] at this
        rcases (hinv.tri x).mp this with hc | hc
        · simp at hc
        · exact hc
    exact ⟨hinv.nodupL, hmem, hinv.pairw, hinv.irrefl, hinv.closed⟩

/-- A successful ghost sort rules out dependency cycles. -/
theorem no_cycle_of_sortAppend_ok (g : Graph)
    (hkl : ∀ p ∈ g.nodes, lookupNode g.nodes p.1 = some p.2)
    {L : List NodeID} (h : g.sortAppend = .ok L) :
    ∀ n, ¬ Relation.TransGen (Edge g.nodes) n n := by
  obtain ⟨hnd, hmem, hpair, hirr, hclosed⟩ := sortAppend_spec g hkl h
  have hsrc : ∀ a b, Edge g.nodes a b → a ∈ L := by
    rintro a b ⟨nd, hl, _⟩
    exact (hmem a).mpr (lookupNode_isSome_iff.mp (by simp [hl]))
  have hrank : ∀ a b, Edge g.nodes a b → a ∈ L → L.indexOf b < L.indexOf a := by
    intro a b hab haL
    have hbL : b ∈ L := hclosed a haL b hab
    have hne : a ≠ b := by
      intro hcontra
      subst hcontra
      exact hirr a haL hab
    have hia := List.indexOf_lt_length.mpr haL
    have hib := List.indexOf_lt_length.mpr hbL
    rcases Nat.lt_trichotomy (L.indexOf a) (L.indexOf b) with hlt | heq | hgt
    · exfalso
      have := List.pairwise_iff_getElem.mp hpair (L.indexOf a) (L.indexOf b) hia hib hlt
      rw [List.getElem_indexOf hia, List.getElem_indexOf hib] at this
      exact this hab
    · exact absurd ((List.indexOf_inj haL hbL).mp heq) hne
    · exact hgt
  intro n hn
  have main : ∀ a b, Relation.TransGen (Edge g.nodes) a b →
      a ∈ L ∧ L.indexOf b < L.indexOf a := by
    intro a b hab
    induction hab with
    | single h1 => exact ⟨hsrc _ _ h1, hrank _ _ h1 (hsrc _ _ h1)⟩
    | tail h1 h2 ih =>
      exact ⟨ih.1, lt_trans (hrank _ _ h2 (hsrc _ _ h2)) ih.2⟩
  exact lt_irrefl _ (main n n hn).2

theorem visitDeps_no_fuelOut (g : GraphRep) (stackC : List NodeID)
    (recur : NodeID → List NodeID → List NodeID → List NodeID →
      Except GraphError (List NodeID × List NodeID)) (K : Nat)
    (hrecmono : ∀ n ns v r v' r', recur n ns v r = .ok (v', r') → ∀ x ∈ v, x ∈ v')
    (hrecsuff : ∀ n ns v r, n ∈ keysG g → n ∉ v → 1 + unvisitedCount g v ≤ K →
      recur n ns v r ≠ .error .outOfFuel) :
    ∀ (ns v r : List NodeID), 1 + unvisitedCount g v ≤ K →
      visitDeps g recur stackC ns v r ≠ .error .outOfFuel := by
  intro ns
  induction ns with
  | nil =>
    intro v r _ h
    simp [visitDeps] at h
  | cons n rest ih =>
    intro v r hK h
    simp only [visitDeps] at h
    by_cases hv : n ∈ v
    · rw [if_pos hv] at h
      by_cases hs : n ∈ stackC
      · rw [if_pos hs] at h
        exact GraphError.noConfusion (Except.error.inj h)
      · rw [if_neg hs] at h
        exact ih v r hK h
    · rw [if_neg hv] at h
      rcases hlook : lookupNode g n with _ | nd
      · simp only [hlook] at h
        exact GraphError.noConfusion (Except.error.inj h)
      · simp only [hlook] at h
        have hnk : n ∈ keysG g := lookupNode_isSome_iff.mp (by simp [hlook])
        rcases hr : recur n nd.Dependencies v r with e | pr
        · simp only [hr] at h
          have he := Except.error.inj h
          exact hrecsuff n nd.Dependencies v r hnk hv hK (by rw [hr, he])
        · obtain ⟨v₁, r₁⟩ := pr
          simp only [hr] at h
          have hvm : ∀ x ∈ v, x ∈ v₁ := hrecmono n _ v r v₁ r₁ hr
          have hanti : unvisitedCount g v₁ ≤ unvisitedCount g v :=
            unvisitedCount_anti g hvm
          exact ih v₁ r₁ (le_trans (Nat.add_le_add_left hanti 1) hK) h

theorem visitNode_no_fuelOut (g : GraphRep)
    (place : List NodeID → NodeID → List NodeID) :
    ∀ (fuel : Nat) (name : NodeID) (ns stack v r : List NodeID),
      name ∈ keysG g → name ∉ v → 1 + unvisitedCount g v ≤ fuel →
      visitNode g place fuel name ns stack v r ≠ .error .outOfFuel := by
  intro fuel
  induction fuel with
  | zero =>
    intro name ns stack v r hk hv hf
    omega
  | succ f ih =>
    intro name ns stack v r hk hv hf h
    simp only [visitNode] at h
    rcases hd : visitDeps g (fun n ns v r => visitNode g place f n ns (name :: stack) v r)
        (name :: stack) ns (name :: v) r with e | pr
    · simp only [hd] at h
      have he := Except.error.inj h
      obtain ⟨hU, hpos⟩ := unvisitedCount_cons hk hv
      refine visitDeps_no_fuelOut g (name :: stack) _ f
        (fun n' ns' v₀ r₀ v₀' r₀' hh =>
          visitNode_visited_mono g place f n' ns' (name :: stack) v₀ r₀ v₀' r₀' hh)
        (fun n' ns' v₀ r₀ hk' hv' hK' => ih n' ns' (name :: stack) v₀ r₀ hk' hv' hK')
        ns (name :: v) r ?_ (by rw [hd, he])
      rw [hU]
      omega
    · obtain ⟨v₂, r₂⟩ := pr
      simp only [hd] at h
      exact absurd h (by simp)

theorem sortLoop_no_fuelOut (g : GraphRep)
    (place : List NodeID → NodeID → List NodeID) (fuel : Nat) :
    ∀ (todo : GraphRep) (v r : List NodeID),
      (∀ p ∈ todo, p.1 ∈ keysG g) → 1 + unvisitedCount g v ≤ fuel →
      sortLoop g place fuel todo v r ≠ .error .outOfFuel := by
  intro todo
  induction todo with
  | nil =>
    intro v r _ _ h
    simp [sortLoop] at h
  | cons p rest ih =>
    intro v r hkeys hf h
    obtain ⟨n, node⟩ := p
    simp only [sortLoop] at h
    by_cases hv : n ∈ v
    · rw [if_pos hv] at h
      exact ih v r (fun q hq => hkeys q (List.mem_cons_of_mem _ hq)) hf h
    · rw [if_neg hv] at h
      rcases hvn : visitNode g place fuel n node.Dependencies [] v r with e | pr
      · simp only [hvn] at h
        have he := Except.error.inj h
        exact visitNode_no_fuelOut g place fuel n node.Dependencies [] v r
          (hkeys (n, node) (by simp)) hv hf (by rw [hvn, he])
      · obtain ⟨v₁, r₁⟩ := pr
        simp only [hvn] at h
        have hvm : ∀ x ∈ v, x ∈ v₁ :=
          visitNode_visited_mono g place fuel n node.Dependencies [] v r v₁ r₁ hvn
        have hanti : unvisitedCount g v₁ ≤ unvisitedCount g v :=
          unvisitedCount_anti g hvm
        exact ih v₁ r₁ (fun q hq => hkeys q (List.mem_cons_of_mem _ hq))
          (le_trans (Nat.add_le_add_left hanti 1) hf) h

/-- `Sort`'s fuel (one more than the number of nodes) never runs out: the
fuel marker is unreachable, for either placement function. -/
theorem sortWith_no_fuelOut (g : Graph) (place : List NodeID → NodeID → List NodeID)
    (init : List NodeID) : sortWith g place init ≠ .error .outOfFuel := by
  intro h
  rw [sortWith] at h
  rcases hsl : sortLoop g.nodes place (g.nodes.length + 1) g.nodes [] init with e | pr
  · simp only [hsl] at h
    have he := Except.error.inj h
    refine sortLoop_no_fuelOut g.nodes place (g.nodes.length + 1) g.nodes [] init
      (fun p hp => List.mem_map_of_mem Prod.fst hp) ?_ (by rw [hsl, he])
    have := unvisitedCount_le g.nodes []
    omega
  · obtain ⟨v₁, r₁⟩ := pr
    simp only [hsl] at h
    exact absurd h (by simp)

/-- The stack of a visit chain is a dependency chain: each entry depends on
the entry pushed after it. -/
def StackOK (g : GraphRep) (stack : List NodeID) : Prop :=
  List.Chain' (fun x y => Edge g y x) stack

theorem stack_reach (g : GraphRep) :
    ∀ (t : List NodeID) (hd : NodeID), StackOK g (hd :: t) →
      ∀ n ∈ t, Relation.TransGen (Edge g) n hd := by
  intro t
  induction t with
  | nil =>
    intro hd _ n hn
    simp at hn
  | cons a t' ih =>
    intro hd hch n hn
    have hedge : Edge g a hd := (List.chain'_cons.mp hch).1
    have hch' : StackOK g (a :: t') := (List.chain'_cons.mp hch).2
    rcases List.mem_cons.mp hn with rfl | hn
    · exact Relation.TransGen.single hedge
    · exact Relation.TransGen.tail (ih a hch' n hn) hedge

/-- A back-edge into the stack closes a dependency cycle through the
on-stack node. -/
theorem cycle_of_stack (g : GraphRep) {hd n : NodeID} {t : List NodeID}
    (hch : StackOK g (hd :: t)) (hn : n ∈ hd :: t) (hedge : Edge g hd n) :
    Relation.TransGen (Edge g) n n := by
  rcases List.mem_cons.mp hn with rfl | hn
  · exact Relation.TransGen.single hedge
  · exact Relation.TransGen.tail (stack_reach g t hd hch n hn) hedge

/-- What an error coming out of the sort machinery can be: the fuel marker,
a dangling dependency reference, or a detected cycle — and in the cycle
case the reported identifier really lies on a dependency cycle. -/
def SortFail (g : GraphRep) (e : GraphError) : Prop :=
  e = .outOfFuel ∨
  (∃ d, e = .nodeNotFound d ∧ lookupNode g d = none ∧ ∃ a, Edge g a d) ∨
  (∃ c, e = .cycleDetected c ∧ Relation.TransGen (Edge g) c c)

theorem visitDeps_classify (g : GraphRep) (hd : NodeID) (tl : List NodeID)
    (recur : NodeID → List NodeID → List NodeID → List NodeID →
      Except GraphError (List NodeID × List NodeID))
    (hch : StackOK g (hd :: tl))
    (hrec : ∀ n nd v r e', Edge g hd n → lookupNode g n = some nd →
      recur n nd.Dependencies v r = .error e' → SortFail g e') :
    ∀ (ns v r : List NodeID) (e' : GraphError), (∀ n ∈ ns, Edge g hd n) →
      visitDeps g recur (hd :: tl) ns v r = .error e' → SortFail g e' := by
  intro ns
  induction ns with
  | nil =>
    intro v r e' _ h
    simp [visitDeps] at h
  | cons n rest ih =>
    intro v r e' hns h
    simp only [visitDeps] at h
    by_cases hv : n ∈ v
    · rw [if_pos hv] at h
      by_cases hs : n ∈ hd :: tl
      · rw [if_pos hs] at h
        have he := Except.error.inj h
        exact Or.inr (Or.inr ⟨n, he.symm,
          cycle_of_stack g hch hs (hns n (by simp))⟩)
      · rw [if_neg hs] at h
        exact ih v r e' (fun m hm => hns m (List.mem_cons_of_mem _ hm)) h
    · rw [if_neg hv] at h
      rcases hlook : lookupNode g n with _ | nd
      · simp only [hlook] at h
        have he := Except.error.inj h
        exact Or.inr (Or.inl ⟨n, he.symm, hlook, hd, hns n (by simp)⟩)
      · simp only [hlook] at h
        rcases hr : recur n nd.Dependencies v r with e | pr
        · simp only [hr] at h
          have he := Except.error.inj h
          exact he ▸ hrec n nd v r e (hns n (by simp)) hlook hr
        · obtain ⟨v₁, r₁⟩ := pr
          simp only [hr] at h
          exact ih v₁ r₁ e' (fun m hm => hns m (List.mem_cons_of_mem _ hm)) h

theorem visitNode_classify (g : GraphRep)
    (place : List NodeID → NodeID → List NodeID) :
    ∀ (fuel : Nat) (name : NodeID) (ndname : Node) (stack v r : List NodeID)
      (e' : GraphError),
      lookupNode g name = some ndname → StackOK g (name :: stack) →
      visitNode g place fuel name ndname.Dependencies stack v r = .error e' →
      SortFail g e' := by
  intro fuel
  induction fuel with
  | zero =>
    intro name ndname stack v r e' _ _ h
    simp only [visitNode] at h
    exact Or.inl (Except.error.inj h).symm
  | succ f ih =>
    intro name ndname stack v r e' hname hch h
    simp only [visitNode] at h
    rcases hd : visitDeps g
        (fun n ns v r => visitNode g place f n ns (name :: stack) v r)
        (name :: stack) ndname.Dependencies (name :: v) r with e | pr
    · simp only [hd] at h
      have he := Except.error.inj h
      refine he ▸ visitDeps_classify g name stack _ hch ?_
        ndname.Dependencies (name :: v) r e ?_ hd
      · intro n nd v₀ r₀ e₀ hedge hlook hrec_err
        have hch' : StackOK g (n :: name :: stack) :=
          List.chain'_cons.mpr ⟨hedge, hch⟩
        exact ih n nd (name :: stack) v₀ r₀ e₀ hlook hch' hrec_err
      · intro m hm
        exact ⟨ndname, hname, hm⟩
    · obtain ⟨v₂, r₂⟩ := pr
      simp only [hd] at h
      exact absurd h (by simp)

theorem sortLoop_classify (g : GraphRep)
    (place : List NodeID → NodeID → List NodeID) (fuel : Nat) :
    ∀ (todo : GraphRep) (v r : List NodeID) (e' : GraphError),
      (∀ p ∈ todo, lookupNode g p.1 = some p.2) →
      sortLoop g place fuel todo v r = .error e' → SortFail g e' := by
  intro todo
  induction todo with
  | nil =>
    intro v r e' _ h
    simp [sortLoop] at h
  | cons p rest ih =>
    intro v r e' hkl h
    obtain ⟨n, node⟩ := p
    simp only [sortLoop] at h
    by_cases hv : n ∈ v
    · rw [if_pos hv] at h
      exact ih v r e' (fun q hq => hkl q (List.mem_cons_of_mem _ hq)) h
    · rw [if_neg hv] at h
      rcases hvn : visitNode g place fuel n node.Dependencies [] v r with e | pr
      · simp only [hvn] at h
        have he := Except.error.inj h
        refine he ▸ visitNode_classify g place fuel n node [] v r e ?_ ?_ hvn
        · exact hkl (n, node) (by simp)
        · exact List.chain'_singleton n
      · obtain ⟨v₁, r₁⟩ := pr
        simp only [hvn] at h
        exact ih v₁ r₁ e' (fun q hq => hkl q (List.mem_cons_of_mem _ hq)) h

/-- Classification of every `Sort` error, for either placement function. -/
theorem sortWith_classify (g : Graph) (place : List NodeID → NodeID → List NodeID)
    (init : List NodeID) {e : GraphError}
    (hkl : ∀ p ∈ g.nodes, lookupNode g.nodes p.1 = some p.2)
    (h : sortWith g place init = .error e) : SortFail g.nodes e := by
  rw [sortWith] at h
  rcases hsl : sortLoop g.nodes place (g.nodes.length + 1) g.nodes [] init with e₁ | pr
  · simp only [hsl] at h
    have he := Except.error.inj h
    exact he ▸ sortLoop_classify g.nodes place (g.nodes.length + 1) g.nodes [] init
      e₁ hkl hsl
  · obtain ⟨v₁, r₁⟩ := pr
    simp only [hsl] at h
    exact absurd h (by simp)

/-- Control-flow agreement between the faithful `sort` and the proof-side
`sortAppend`: same error, or `sort`'s slot-filled array is the fold of
`sortFill` over `sortAppend`'s finish sequence. -/
theorem sort_bridge (g : Graph) :
    (∃ e, g.sort = .error e ∧ g.sortAppend = .error e) ∨
    (∃ w, g.sort = .ok (w.foldl sortFill (List.replicate g.nodes.length "")) ∧
      g.sortAppend = .ok w) := by
  have hb := sortLoop_bridge g.nodes sortFill pushL (g.nodes.length + 1) g.nodes []
    (List.replicate g.nodes.length "") []
  rcases hb with ⟨e, he₁, he₂⟩ | ⟨v, w, hh₁, hh₂⟩
  · refine Or.inl ⟨e, ?_, ?_⟩
    · simp only [Graph.sort, sortWith, he₁]
    · simp only [Graph.sortAppend, sortWith, he₂]
  · refine Or.inr ⟨w, ?_, ?_⟩
    · simp only [Graph.sort, sortWith, hh₁]
    · simp only [Graph.sortAppend, sortWith, hh₂]
      rw [foldl_pushL w []]
      simp

/-- Filling the first empty slot of a partially filled results array whose
filled prefix has no empty identifiers places the name right after the
prefix. -/
theorem sortFill_fills (D : List NodeID) (hD : ∀ x ∈ D, x ≠ "") (k : Nat)
    (nm : NodeID) :
    sortFill (D ++ List.replicate (k + 1) "") nm = D ++ nm :: List.replicate k "" := by
  induction D with
  | nil =>
    simp [List.replicate_succ, sortFill]
  | cons d D' ih =>
    have hd : d ≠ "" := hD d (by simp)
    simp only [List.cons_append, sortFill, if_neg hd, List.append_eq]
    rw [ih (fun x hx => hD x (List.mem_cons_of_mem _ hx))]

/-- Folding `sortFill` over a sequence of non-empty names behaves exactly
like appending them after the already-filled prefix. -/
theorem foldl_sortFill : ∀ (w D : List NodeID) (k : Nat),
    (∀ x ∈ D, x ≠ "") → (∀ x ∈ w, x ≠ "") → w.length ≤ k →
    w.foldl sortFill (D ++ List.replicate k "") =
      (D ++ w) ++ List.replicate (k - w.length) "" := by
  intro w
  induction w with
  | nil =>
    intro D k _ _ _
    simp
  | cons x w' ih =>
    intro D k hD hw hlen
    rcases k with _ | k'
    · simp at hlen
    · rw [List.foldl_cons, sortFill_fills D hD k' x]
      have hsplit : D ++ x :: List.replicate k' "" =
          (D ++ [x]) ++ List.replicate k' "" := by simp
      rw [hsplit, ih (D ++ [x]) k' ?_ ?_ ?_]
      · simp [Nat.succ_sub_succ]
      · intro y hy
        rcases List.mem_append.mp hy with hy | hy
        · exact hD y hy
        · simp at hy
          subst hy
          exact hw y (by simp)
      · exact fun y hy => hw y (List.mem_cons_of_mem _ hy)
      · simp at hlen
        omega

/-- Graphs reachable from `NewGraph` through successful `Add` calls. -/
inductive BuiltByAdd : Graph → Prop where
  | base (name : String) : BuiltByAdd (NewGraph name)
  | step {g g' : Graph} {node : Node} {id : NodeID} :
      BuiltByAdd g → g.Add node = (.ok id, g') → BuiltByAdd g'

theorem lookupNode_append_self (m : GraphRep) (q : NodeID × Node) (x : NodeID) :
    lookupNode (m ++ [q]) x =
      match lookupNode m x with
      | some v => some v
      | none => if q.1 = x then some q.2 else none := by
  induction m with
  | nil => simp [lookupNode]
  | cons p rest ih =>
    obtain ⟨k, v⟩ := p
    by_cases hk : k = x
    · simp [lookupNode, hk]
    · simp [lookupNode, hk, ih]

theorem lookupNode_isSome_append {m : GraphRep} {q : NodeID × Node} {x : NodeID}
    (h : (lookupNode m x).isSome) : (lookupNode (m ++ [q]) x).isSome := by
  rw [lookupNode_append_self]
  rcases hl : lookupNode m x with _ | v
  · rw [hl] at h
    simp at h
  · simp

/-- Every graph built through successful `Add` calls has unique identifiers
and all dependency references present. -/
theorem BuiltByAdd_wf {g : Graph} (h : BuiltByAdd g) :
    (keysG g.nodes).Nodup ∧ depsPresent g.nodes := by
  induction h with
  | base name =>
    exact ⟨by simp [NewGraph, keysG], by simp [NewGraph, depsPresent]⟩
  | @step g₀ g₁ node id hb hadd ih =>
    by_cases hs : (lookupNode g₀.nodes node.Identifier).isSome
    · rw [Graph.Add] at hadd
      simp [hs] at hadd
    · rcases hf : firstMissingDep g₀.nodes node.Dependencies with _ | d
      · rw [Graph.Add] at hadd
        simp only [hs, if_false, hf, if_neg, Bool.false_eq_true] at hadd
        injection hadd with hadd₁ hadd₂
        have hid : id = node.Identifier := by
          injection hadd₁ with hadd₁
          exact hadd₁.symm
        have hnodes : g₁.nodes = g₀.nodes ++ [(node.Identifier, node)] := by
          rw [← hadd₂]
        have hnotmem : node.Identifier ∉ keysG g₀.nodes := by
          rw [← lookupNode_isSome_iff]
          exact hs
        have hdepsok : ∀ d₀ ∈ node.Dependencies, (lookupNode g₀.nodes d₀).isSome := by
          intro d₀ hd₀
          rw [firstMissingDep, List.find?_eq_none] at hf
          have := hf d₀ hd₀
          simpa [Option.isNone_iff_eq_none, Option.isSome_iff_ne_none] using this
        constructor
        · rw [hnodes]
          have : keysG (g₀.nodes ++ [(node.Identifier, node)]) =
              keysG g₀.nodes ++ [node.Identifier] := by simp [keysG]
          rw [this, List.nodup_append]
          refine ⟨ih.1, List.nodup_singleton _, ?_⟩
          intro a ha hb'
          simp at hb'
          subst hb'
          exact hnotmem ha
        · rw [hnodes]
          intro p hp d₀ hd₀
          rcases List.mem_append.mp hp with hp | hp
          · exact lookupNode_isSome_append (ih.2 p hp d₀ hd₀)
          · simp at hp
            subst hp
            exact lookupNode_isSome_append (hdepsok d₀ hd₀)
      · rw [Graph.Add] at hadd
        simp only [hs, if_false, hf, if_neg, Bool.false_eq_true] at hadd
        injection hadd with hadd₁ hadd₂
        exact Except.noConfusion hadd₁

/-- In a duplicate-free topological listing, a dependency's position is
strictly before its dependent's. -/
theorem topo_indexOf_lt {g : GraphRep} {L : List NodeID}
    (hpair : L.Pairwise (fun a b => ¬ Edge g a b))
    (hirr : ∀ a ∈ L, ¬ Edge g a a)
    {n d : NodeID} (hedge : Edge g n d) (hnL : n ∈ L) (hdL : d ∈ L) :
    L.indexOf d < L.indexOf n := by
  have hne2 : n ≠ d := fun hc => hirr n hnL (hc ▸ hedge)
  have hin := List.indexOf_lt_length.mpr hnL
  have hid := List.indexOf_lt_length.mpr hdL
  rcases Nat.lt_trichotomy (L.indexOf n) (L.indexOf d) with hlt | heq | hgt
  · exfalso
    have := List.pairwise_iff_getElem.mp hpair (L.indexOf n) (L.indexOf d) hin hid hlt
    rw [List.getElem_indexOf hin, List.getElem_indexOf hid] at this
    exact this hedge
  · exact absurd ((List.indexOf_inj hnL hdL).mp heq) hne2
  · exact hgt

/-- Engine form of claim C2: on a duplicate-free graph with all dependency
references present, only non-empty identifiers, and no dependency cycle,
`Sort` succeeds with a permutation of the identifiers in which every
dependency precedes its dependents. -/
theorem sort_topo_engine (g : Graph) (hk : (keysG g.nodes).Nodup)
    (hdeps : depsPresent g.nodes) (hne : ∀ x ∈ keysG g.nodes, x ≠ "")
    (hacyc : ∀ n, ¬ Relation.TransGen (Edge g.nodes) n n) :
    ∃ r, g.sort = .ok r ∧ r.Perm (keysG g.nodes) ∧
      ∀ n d, Edge g.nodes n d → r.indexOf d < r.indexOf n := by
  have hkl : ∀ p ∈ g.nodes, lookupNode g.nodes p.1 = some p.2 := by
    intro p hp
    refine lookupNode_of_mem_nodup hk ?_
    simpa using hp
  rcases sort_bridge g with ⟨e, he₁, he₂⟩ | ⟨w, hw₁, hw₂⟩
  · exfalso
    have hcl := sortWith_classify g sortFill (List.replicate g.nodes.length "") hkl he₁
    rcases hcl with hfo | ⟨d, hd, hlook, a, hedge⟩ | ⟨c, hc, hcyc⟩
    · exact sortWith_no_fuelOut g sortFill (List.replicate g.nodes.length "")
        (hfo ▸ he₁)
    · obtain ⟨nd, hla, hmem⟩ := hedge
      have := hdeps (a, nd) (lookupNode_mem hla) d hmem
      rw [hlook] at this
      simp at this
    · exact hacyc c hcyc
  · have hspec := sortAppend_spec g hkl hw₂
    obtain ⟨hnd, hmem, hpair, hirr, hclosed⟩ := hspec
    have hperm : w.Perm (keysG g.nodes) := by
      rw [List.perm_ext_iff_of_nodup hnd hk]
      exact hmem
    have hlen : w.length = g.nodes.length := by
      have := hperm.length_eq
      simpa [keysG] using this
    have hwne : ∀ x ∈ w, x ≠ "" := fun x hx => hne x ((hmem x).mp hx)
    have hfill : w.foldl sortFill (List.replicate g.nodes.length "") = w := by
      have h0 := foldl_sortFill w [] g.nodes.length (by simp) hwne (by omega)
      simpa [hlen] using h0
    rw [hfill] at hw₁
    refine ⟨w, hw₁, hperm, ?_⟩
    intro n d hedge
    have hnL : n ∈ w := by
      obtain ⟨nd', hl, _⟩ := hedge
      exact (hmem n).mpr (lookupNode_isSome_iff.mp (by simp [hl]))
    have hdL : d ∈ w := hclosed n hnL d hedge
    exact topo_indexOf_lt hpair hirr hedge hnL hdL

/-- Claim C2 (amended: all identifiers must additionally be non-empty,
because `Sort` uses `""` as the empty-slot sentinel of its results array):
for every acyclic graph built via `Add` whose identifiers are non-empty,
`Sort` returns a permutation of all node identifiers in which every
dependency's position strictly precedes its dependents' positions. -/
theorem sort_topo_of_builtByAdd (g : Graph) (hb : BuiltByAdd g)
    (hne : ∀ x ∈ keysG g.nodes, x ≠ "")
    (hacyc : ∀ n, ¬ Relation.TransGen (Edge g.nodes) n n) :
    ∃ r, g.sort = .ok r ∧ r.Perm (keysG g.nodes) ∧
      ∀ n d, Edge g.nodes n d → r.indexOf d < r.indexOf n := by
  obtain ⟨hk, hdeps⟩ := BuiltByAdd_wf hb
  exact sort_topo_engine g hk hdeps hne hacyc

/-- Claim C4 (amended: every dependency reference must exist and identifiers
are unique — otherwise `Sort` may report the dangling reference as a
`nodeNotFound` error before ever reaching the cycle): for every graph
containing a dependency cycle, `Sort` returns no ordering but fails with
`cycleDetected`, and the identifier it reports really lies on a dependency
cycle (it is the on-stack ancestor at which the back-edge was found). -/
theorem sort_cycleDetected_of_cycle (g : Graph) (hk : (keysG g.nodes).Nodup)
    (hdeps : depsPresent g.nodes)
    (hcyc : ∃ n, Relation.TransGen (Edge g.nodes) n n) :
    ∃ c, g.sort = .error (.cycleDetected c) ∧
      Relation.TransGen (Edge g.nodes) c c := by
  have hkl : ∀ p ∈ g.nodes, lookupNode g.nodes p.1 = some p.2 := by
    intro p hp
    refine lookupNode_of_mem_nodup hk ?_
    simpa using hp
  rcases hres : g.sort with e | r
  · have hcl := sortWith_classify g sortFill (List.replicate g.nodes.length "") hkl hres
    rcases hcl with hfo | ⟨d, hd, hlook, a, hedge⟩ | ⟨c, hc, hcyc'⟩
    · exact absurd (hfo ▸ hres)
        (sortWith_no_fuelOut g sortFill (List.replicate g.nodes.length ""))
    · exfalso
      obtain ⟨nd, hla, hmem⟩ := hedge
      have := hdeps (a, nd) (lookupNode_mem hla) d hmem
      rw [hlook] at this
      simp at this
    · exact ⟨c, by rw [hc], hcyc'⟩
  · exfalso
    rcases sort_bridge g with ⟨e, he₁, he₂⟩ | ⟨w, hw₁, hw₂⟩
    · rw [hres] at he₁
      exact absurd he₁ (by simp)
    · obtain ⟨n, hn⟩ := hcyc
      exact no_cycle_of_sortAppend_ok g hkl hw₂ n hn

/-- The two-node cycle used as the C4 witness. -/
def graphCycle : Graph :=
  ⟨"g", [("a", ⟨"a", okFn, ["b"]⟩), ("b", ⟨"b", okFn, ["a"]⟩)]⟩

theorem graphCycle_has_cycle :
    Relation.TransGen (Edge graphCycle.nodes) "a" "a" := by
  have e1 : Edge graphCycle.nodes "a" "b" := ⟨⟨"a", okFn, ["b"]⟩, rfl, by simp⟩
  have e2 : Edge graphCycle.nodes "b" "a" := ⟨⟨"b", okFn, ["a"]⟩, rfl, by simp⟩
  exact Relation.TransGen.tail (Relation.TransGen.single e1) e2

/-- Witness for C4 at the concrete two-node cycle. -/
theorem sort_cycleDetected_witness :
    ∃ c, graphCycle.sort = .error (.cycleDetected c) ∧
      Relation.TransGen (Edge graphCycle.nodes) c c :=
  sort_cycleDetected_of_cycle graphCycle (by decide) (by decide)
    ⟨"a", graphCycle_has_cycle⟩

/-- A graph that contains the same two-node cycle but also a node with a
dangling dependency reference, listed first. -/
def graphMasked : Graph :=
  ⟨"g", [("x", ⟨"x", okFn, ["zz"]⟩), ("a", ⟨"a", okFn, ["b"]⟩),
         ("b", ⟨"b", okFn, ["a"]⟩)]⟩

theorem graphMasked_has_cycle :
    Relation.TransGen (Edge graphMasked.nodes) "a" "a" := by
  have e1 : Edge graphMasked.nodes "a" "b" := ⟨⟨"a", okFn, ["b"]⟩, rfl, by simp⟩
  have e2 : Edge graphMasked.nodes "b" "a" := ⟨⟨"b", okFn, ["a"]⟩, rfl, by simp⟩
  exact Relation.TransGen.tail (Relation.TransGen.single e1) e2

/-- Counterexample for C4 as stated: `graphMasked` contains a dependency
cycle, yet `Sort` fails with the missing-dependency error
`nodeNotFound "zz"` — found before the cycle — not with `cycleDetected`. -/
theorem sort_cycle_counterexample :
    ¬ (∀ g : Graph, (∃ n, Relation.TransGen (Edge g.nodes) n n) →
        ∃ c, g.sort = .error (.cycleDetected c)) := by
  intro hclaim
  obtain ⟨c, hc⟩ := hclaim graphMasked ⟨"a", graphMasked_has_cycle⟩
  rw [show graphMasked.sort = .error (.nodeNotFound "zz") from rfl] at hc
  exact GraphError.noConfusion (Except.error.inj hc)

/-- The C2 witness graph: `b` depends on `a`. -/
def nodeB : Node := ⟨"b", okFn, ["a"]⟩

def graphAB : Graph := ⟨"g", [("a", nodeA), ("b", nodeB)]⟩

theorem graphAB_built : BuiltByAdd graphAB := by
  have h0 : BuiltByAdd (NewGraph "g") := .base "g"
  have h1 : BuiltByAdd ⟨"g", [("a", nodeA)]⟩ :=
    BuiltByAdd.step h0
      (show (NewGraph "g").Add nodeA = (.ok "a", ⟨"g", [("a", nodeA)]⟩) from rfl)
  exact BuiltByAdd.step h1
    (show Graph.Add ⟨"g", [("a", nodeA)]⟩ nodeB = (.ok "b", graphAB) from rfl)

theorem graphAB_edge {x y : NodeID} (h : Edge graphAB.nodes x y) :
    x = "b" ∧ y = "a" := by
  obtain ⟨nd, hl, hm⟩ := h
  by_cases hx : x = "a"
  · subst hx
    rw [show lookupNode graphAB.nodes "a" = some nodeA from rfl] at hl
    injection hl with hl
    subst hl
    simp [nodeA] at hm
  · by_cases hx2 : x = "b"
    · subst hx2
      rw [show lookupNode graphAB.nodes "b" = some nodeB from rfl] at hl
      injection hl with hl
      subst hl
      simp [nodeB] at hm
      exact ⟨rfl, hm⟩
    · exfalso
      have hnone : lookupNode graphAB.nodes x = none := by
        simp only [graphAB, lookupNode]
        rw [if_neg (fun hh => hx hh.symm), if_neg (fun hh => hx2 hh.symm)]
      rw [hnone] at hl
      exact Option.noConfusion hl

theorem graphAB_acyclic : ∀ n, ¬ Relation.TransGen (Edge graphAB.nodes) n n := by
  have h2 : ∀ x y, Relation.TransGen (Edge graphAB.nodes) x y →
      x = "b" ∧ y = "a" := by
    intro x y h
    induction h with
    | single h1 => exact graphAB_edge h1
    | tail h1 h2 ih =>
      have hmid := graphAB_edge h2
      refine absurd ?_ (by decide : ¬ ("a" : NodeID) = "b")
      rw [← ih.2, hmid.1]
  intro n hn
  obtain ⟨h1, h2'⟩ := h2 n n hn
  rw [h1] at h2'
  exact absurd h2' (by decide)

/-- Witness for C2 at the concrete two-node chain built via `Add`. -/
theorem sort_topo_witness :
    ∃ r, graphAB.sort = .ok r ∧ r.Perm (keysG graphAB.nodes) ∧
      ∀ n d, Edge graphAB.nodes n d → r.indexOf d < r.indexOf n :=
  sort_topo_of_builtByAdd graphAB graphAB_built (by decide) graphAB_acyclic

/-- A graph, built via `Add`, containing a node literally named `""`. -/
def nodeEmpty : Node := ⟨"", okFn, []⟩

def nodeAOnEmpty : Node := ⟨"a", okFn, [""]⟩

def graphEmptyName : Graph := ⟨"g", [("", nodeEmpty), ("a", nodeAOnEmpty)]⟩

theorem graphEmptyName_built : BuiltByAdd graphEmptyName := by
  have h0 : BuiltByAdd (NewGraph "g") := .base "g"
  have h1 : BuiltByAdd ⟨"g", [("", nodeEmpty)]⟩ :=
    BuiltByAdd.step h0
      (show (NewGraph "g").Add nodeEmpty = (.ok "", ⟨"g", [("", nodeEmpty)]⟩) from rfl)
  exact BuiltByAdd.step h1
    (show Graph.Add ⟨"g", [("", nodeEmpty)]⟩ nodeAOnEmpty =
      (.ok "a", graphEmptyName) from rfl)

theorem graphEmptyName_edge {x y : NodeID} (h : Edge graphEmptyName.nodes x y) :
    x = "a" ∧ y = "" := by
  obtain ⟨nd, hl, hm⟩ := h
  by_cases hx : x = ""
  · subst hx
    rw [show lookupNode graphEmptyName.nodes "" = some nodeEmpty from rfl] at hl
    injection hl with hl
    subst hl
    simp [nodeEmpty] at hm
  · by_cases hx2 : x = "a"
    · subst hx2
      rw [show lookupNode graphEmptyName.nodes "a" = some nodeAOnEmpty from rfl] at hl
      injection hl with hl
      subst hl
      simp [nodeAOnEmpty] at hm
      exact ⟨rfl, hm⟩
    · exfalso
      have hnone : lookupNode graphEmptyName.nodes x = none := by
        simp only [graphEmptyName, lookupNode]
        rw [if_neg (fun hh => hx hh.symm), if_neg (fun hh => hx2 hh.symm)]
      rw [hnone] at hl
      exact Option.noConfusion hl

theorem graphEmptyName_acyclic :
    ∀ n, ¬ Relation.TransGen (Edge graphEmptyName.nodes) n n := by
  have h2 : ∀ x y, Relation.TransGen (Edge graphEmptyName.nodes) x y →
      x = "a" ∧ y = "" := by
    intro x y h
    induction h with
    | single h1 => exact graphEmptyName_edge h1
    | tail h1 h2 ih =>
      have hmid := graphEmptyName_edge h2
      refine absurd ?_ (by decide : ¬ ("" : NodeID) = "a")
      rw [← ih.2, hmid.1]
  intro n hn
  obtain ⟨h1, h2'⟩ := h2 n n hn
  rw [h1] at h2'
  exact absurd h2' (by decide)

/-- Counterexample for C2 as stated: `graphEmptyName` is acyclic and built
through successful `Add` calls, yet `Sort` returns `["a", ""]`, in which
the dependency `""` of `"a"` comes after `"a"` — the slot-filling results
array cannot represent a node named `""`. -/
theorem sort_topo_counterexample :
    ¬ (∀ g : Graph, BuiltByAdd g →
        (∀ n, ¬ Relation.TransGen (Edge g.nodes) n n) →
        ∀ r, g.sort = .ok r → r.Perm (keysG g.nodes) ∧
          ∀ n d, Edge g.nodes n d → r.indexOf d < r.indexOf n) := by
  intro hclaim
  have h := hclaim graphEmptyName graphEmptyName_built graphEmptyName_acyclic
    ["a", ""] rfl
  have hedge : Edge graphEmptyName.nodes "a" "" :=
    ⟨nodeAOnEmpty, rfl, by simp [nodeAOnEmpty]⟩
  exact absurd (h.2 "a" "" hedge) (by decide)

end GoGraph
